import Mathlib

/-!
Verification of the log-report generator (`main.py`).

The program reads newline-delimited JSON access-log records from files,
optionally filters them by calendar date (`read_logs`), and produces one of
two tabular reports (`AverageReport.generate`, `UserAgentReport.generate`),
selected by name (`get_report_strategy`, `main`).

Modelling conventions:
* Python dicts decoded from JSON become association lists; `json.loads` is
  external library code (module `json`), so each input line carries the raw
  text together with the decoder's outcome (`Line`).
* Machine floats are modelled exactly: a finite IEEE-754 binary64 value is
  the rational number it denotes, and every operation rounds its exact
  rational result to 53 significant bits, half-to-even (`roundF`).
* Fallible Python code (uncaught `KeyError`, `TypeError`, `ValueError`,
  `AttributeError`, `argparse` rejection) returns `Except Err`.
* Text printed to standard output (the per-line diagnostics of `read_logs`)
  is returned alongside the result.
-/

namespace LogReport

/-- A JSON value as produced by Python's `json.loads`: `null`, booleans,
numbers, strings, arrays, and objects (string-keyed mappings). A numeric
literal is recorded as the exact rational value of the JSON numeral; the
conversion to a machine float is applied where the program coerces the value
with `float(...)` (see `pyFloat`). -/
inductive JsonValue where
  | null
  | bool (b : Bool)
  | num (q : ℚ)
  | str (s : String)
  | arr (elems : List JsonValue)
  | obj (kvs : List (String × JsonValue))

/-- The fatal (uncaught) failure modes of the program. Only
`json.JSONDecodeError` is ever caught (in `read_logs`); every condition below
propagates and aborts the run. -/
inductive Err where
  /-- `datetime.strptime(date_filter, "%Y-%m-%d")` raised `ValueError`. -/
  | badDateFilter
  /-- Subscripting or `.get` on a record that is not a dict (`TypeError` /
  `AttributeError`). -/
  | notAMapping
  /-- `KeyError`: the named key is absent from the record. -/
  | missingKey (k : String)
  /-- `datetime.fromisoformat` raised `ValueError` on the timestamp string. -/
  | badTimestamp
  /-- `datetime.fromisoformat` received a non-string (`TypeError`). -/
  | timestampNotString
  /-- `url.split` on a non-string `url` value (`AttributeError`). -/
  | urlNotString
  /-- `float(...)` raised `ValueError` or `TypeError` on `response_time`. -/
  | badFloat
  /-- A present `http_user_agent` value that is not a string (the model
  restricts the user-agent report to string keys; see `getUA`). -/
  | uaNotString
  /-- The `ValueError` raised in `main` for an unknown strategy name. -/
  | unknownReport
  /-- `argparse` rejected the `--report` value (`choices` constraint). -/
  | argparseChoices
deriving DecidableEq

/-- A calendar date, as produced by Python `datetime.date`. -/
structure Date where
  year : ℕ
  month : ℕ
  day : ℕ
deriving DecidableEq

/-- Gregorian leap-year rule, as in Python's `datetime`. -/
def isLeapYear (y : ℕ) : Bool :=
  (y % 4 == 0 && y % 100 != 0) || y % 400 == 0

/-- Number of days of month `m` in year `y` (the check `datetime` performs on
construction). -/
def daysInMonth (y m : ℕ) : ℕ :=
  if m = 2 then (if isLeapYear y then 29 else 28)
  else if m = 4 ∨ m = 6 ∨ m = 9 ∨ m = 11 then 30
  else 31

/-- Validity check applied by the `datetime.date` constructor. -/
def validDate (y m d : ℕ) : Bool :=
  1 ≤ m && m ≤ 12 && 1 ≤ d && d ≤ daysInMonth y m && 1 ≤ y && y ≤ 9999

/-- Whether every character of the string is an ASCII digit. -/
def allDigits (cs : List Char) : Bool :=
  cs.all (·.isDigit)

/-- Model of Python `str.strip()`: remove leading and trailing whitespace
(`Char.isWhitespace` covers space, tab, carriage return and line feed; the
additional Unicode whitespace Python strips does not occur in the inputs
considered). -/
def pyStrip (s : String) : String :=
  (((s.toList.dropWhile Char.isWhitespace).reverse.dropWhile Char.isWhitespace).reverse).asString

/-- Model of Python `str.split(sep)` for a one-character separator: split
the character list at every occurrence of `c`; `n` separators yield `n + 1`
(possibly empty) fields. -/
def splitOnChar (c : Char) : List Char → List (List Char)
  | [] => [[]]
  | x :: xs =>
    if x = c then [] :: splitOnChar c xs
    else
      match splitOnChar c xs with
      | h :: t => (x :: h) :: t
      | [] => [[x]]

/-- Numeric value of a string of ASCII digits. -/
def digitsToNat (cs : List Char) : ℕ :=
  cs.foldl (fun n c => 10 * n + (c.toNat - '0'.toNat)) 0

/-- Model of `datetime.strptime(s, "%Y-%m-%d").date()`: exactly four digits
for `%Y`, one or two digits for `%m` and `%d`, separated by literal dashes,
and the resulting numbers must form a valid calendar date. Returns `none`
where Python raises `ValueError`. -/
def parseDateYMD (s : String) : Option Date :=
  match splitOnChar '-' s.toList with
  | [yc, mc, dc] =>
    if yc.length = 4 && allDigits yc &&
       (mc.length = 1 || mc.length = 2) && allDigits mc &&
       (dc.length = 1 || dc.length = 2) && allDigits dc then
      let y := digitsToNat yc
      let m := digitsToNat mc
      let d := digitsToNat dc
      if validDate y m d then some ⟨y, m, d⟩ else none
    else none
  | _ => none

/-- Parse exactly `n` leading ASCII digits, returning their value and the
remaining characters (CPython's `parse_digits`). -/
def parseDigitsAux : ℕ → ℕ → List Char → Option (ℕ × List Char)
  | 0, acc, cs => some (acc, cs)
  | _ + 1, _, [] => none
  | n + 1, acc, c :: cs =>
    if c.isDigit then parseDigitsAux n (10 * acc + (c.toNat - '0'.toNat)) cs else none

/-- Parse exactly `n` leading ASCII digits. -/
def parseDigits (n : ℕ) (cs : List Char) : Option (ℕ × List Char) :=
  parseDigitsAux n 0 cs

/-- Character at index `i` of the time string, with the C string's NUL
terminator as the out-of-bounds value: CPython's time parser works on a
NUL-terminated buffer and several of its checks read the terminator. -/
def getcAt (cs : List Char) (i : ℕ) : Char :=
  cs.getD i (Char.ofNat 0)

/-- C `parse_digits` at an index: exactly `n` ASCII digits starting at `i`.
It has no bounds check of its own — reading past a slice boundary sees the
following characters (or the NUL terminator), which then fail the digit
test. -/
def parseDigitsAt (cs : List Char) : ℕ → ℕ → ℕ → Option ℕ
  | 0, _, acc => some acc
  | n + 1, i, acc =>
    let c := getcAt cs i
    if c.isDigit then parseDigitsAt cs n (i + 1) (10 * acc + (c.toNat - '0'.toNat))
    else none

/-- The closing loop of C `parse_hh_mm_ss_ff`: from index `p`, skip digits
(with no upper bound — the scan can run past the timezone-marker boundary)
and return the first non-digit character found, the NUL terminator
included. The fuel `cs.length + 1` always suffices. -/
def trailScan (cs : List Char) : ℕ → ℕ → Char
  | 0, p => getcAt cs p
  | fuel + 1, p =>
    if (getcAt cs p).isDigit then trailScan cs fuel (p + 1) else getcAt cs p

/-- Fraction stage of C `parse_hh_mm_ss_ff`, entered at index `p` with the
slice boundary `bnd` (the index of the timezone marker, or the string
length when there is none): read `min (bnd - p) 6` digits as microseconds,
scale by the `correction` table when fewer than six remain (when zero
remain the microseconds are zero regardless of the out-of-bounds table
read), then skip trailing digits and report, as the first component of the
result, whether the character the scan stopped at is not NUL — CPython's
return code 1, "a timezone must follow". -/
def fracTail (cs : List Char) (bnd p : ℕ) : Option (Bool × ℕ) :=
  let lenRem := bnd - p
  let toParse := min lenRem 6
  match parseDigitsAt cs toParse p 0 with
  | none => none
  | some micro0 =>
    let micro := if lenRem ≤ 5 then micro0 * 10 ^ (6 - toParse) else micro0
    some (trailScan cs (cs.length + 1) (p + toParse) ≠ Char.ofNat 0, micro)

/-- Component loop of C `parse_hh_mm_ss_ff` (3.11), with `fuel = 3 - i`:
each of up to three iterations parses a two-digit component and consumes
one following character `c`; the first iteration fixes the separator style
(`hasSep` iff that `c` is a colon). If consuming `c` reaches the slice
boundary, the parse succeeds immediately — `c` itself is NOT examined
beyond the returned not-NUL flag, which is how one arbitrary character is
silently swallowed right before a timezone marker (the C code consumes one
UTF-8 BYTE, so only a single-byte character can be swallowed; a multi-byte
character leaves continuation bytes that fail every later byte test, hence
the `c.toNat ≤ 127` guard). Otherwise a colon
continues (extended style), `.` or `,` breaks into the fraction stage,
basic style un-consumes `c` and continues, and anything else in extended
style is an error. After three components control also falls into the
fraction stage, which reads any remaining digits (the `:` + digits and
basic trailing-digits fraction quirks). Returns
`(stopped-at-non-NUL, HH, MM, SS, micro)`; field ranges are checked by the
callers, not here. -/
def hmsLoop (cs : List Char) (bnd : ℕ) :
    ℕ → ℕ → Bool → ℕ → ℕ → ℕ → Option (Bool × ℕ × ℕ × ℕ × ℕ)
  | 0, p, _, h, m, s => (fracTail cs bnd p).map (fun r => (r.1, h, m, s, r.2))
  | fuel + 1, p, hasSep, h, m, s =>
    match parseDigitsAt cs 2 p 0 with
    | none => none
    | some v =>
      let h' := if fuel = 2 then v else h
      let m' := if fuel = 1 then v else m
      let s' := if fuel = 0 then v else s
      let c := getcAt cs (p + 2)
      let hs := if fuel = 2 then decide (c = ':') else hasSep
      if p + 3 ≥ bnd then
        if c.toNat ≤ 127 then some (c ≠ Char.ofNat 0, h', m', s', 0) else none
      else if hs && decide (c = ':') then hmsLoop cs bnd fuel (p + 3) hs h' m' s'
      else if c = '.' ∨ c = ',' then
        (fracTail cs bnd (p + 3)).map (fun r => (r.1, h', m', s', r.2))
      else if !hs then hmsLoop cs bnd fuel (p + 2) hs h' m' s'
      else none

/-- C `parse_hh_mm_ss_ff` on the characters of the time substring from
index `start` up to the slice boundary `bnd`. -/
def parseHMSF (cs : List Char) (start bnd : ℕ) : Option (Bool × ℕ × ℕ × ℕ × ℕ) :=
  hmsLoop cs bnd 3 start true 0 0 0

/-- Index of the first `Z`, `+` or `-` in the time substring, which CPython
takes as the start of the UTC-offset part (`cs.length` when there is
none). -/
def tzScan : List Char → ℕ
  | [] => 0
  | c :: cs => if c = 'Z' ∨ c = '+' ∨ c = '-' then 0 else tzScan cs + 1

/-- Validity of the time part of a `fromisoformat` string: CPython 3.11
`parse_isoformat_time` (as compiled — the C accelerator, not the
pure-Python fallback) plus the `time`/`timezone` constructor checks. The
time-of-day is parsed up to the first timezone marker and must have hour ≤
23, minute ≤ 59, second ≤ 59; with no marker present the parse must have
stopped at a NUL, while with a marker present the stop flag is ignored. A
`Z` marker requires the character after it to be NUL; a `+`/`-` marker is
followed by an offset in the same `HH[:MM[:SS[.ffffff]]]` grammar, parsed
from after the marker to the end of the string and required to stop at a
NUL, whose fields are NOT range-checked individually — the only offset
constraint is that its total magnitude, microseconds included, is strictly
less than 24 hours (the `timezone` constructor's bound). -/
def validTime (cs : List Char) : Bool :=
  let bnd := tzScan cs
  match parseHMSF cs 0 bnd with
  | none => false
  | some (rv, h, m, s, _micro) =>
    decide (h ≤ 23 ∧ m ≤ 59 ∧ s ≤ 59) &&
    if bnd = cs.length then !rv
    else if getcAt cs bnd = 'Z' then decide (getcAt cs (bnd + 1) = Char.ofNat 0)
    else
      match parseHMSF cs (bnd + 1) cs.length with
      | none => false
      | some (rv2, oh, om, os, omicro) =>
        !rv2 && decide ((oh * 3600 + om * 60 + os) * 1000000 + omicro < 86400000000)

/-- Days in the months before month `m` of year `y`. -/
def daysBeforeMonth (y m : ℕ) : ℕ :=
  ((List.range (m - 1)).map (fun i => daysInMonth y (i + 1))).sum

/-- Proleptic Gregorian ordinal of a date, with 0001-01-01 as day 1
(CPython's `ymd_to_ord`). -/
def ymdToOrd (y m d : ℕ) : ℕ :=
  (y - 1) * 365 + (y - 1) / 4 + (y - 1) / 400 - (y - 1) / 100 + daysBeforeMonth y m + d

/-- Month and day of a 0-based day-of-year (fuel-bounded scan over the
twelve months). -/
def findMonthAux : ℕ → ℕ → ℕ → ℕ → ℕ × ℕ
  | 0, _, m, doy => (m, doy + 1)
  | fuel + 1, y, m, doy =>
    if doy < daysInMonth y m then (m, doy + 1)
    else findMonthAux fuel y (m + 1) (doy - daysInMonth y m)

/-- Inverse of `ymdToOrd` (CPython's `ord_to_ymd`). -/
def ordToYmd (n0 : ℕ) : Date :=
  let n := n0 - 1
  let n400 := n / 146097
  let r := n % 146097
  let n100 := r / 36524
  let r2 := r % 36524
  let n4 := r2 / 1461
  let r3 := r2 % 1461
  let n1 := r3 / 365
  let r4 := r3 % 365
  let y := 400 * n400 + 100 * n100 + 4 * n4 + n1 + 1
  if n1 = 4 ∨ n100 = 4 then ⟨y - 1, 12, 31⟩
  else
    let md := findMonthAux 11 y 1 r4
    ⟨y, md.1, md.2⟩

/-- C `days_before_year` as a signed count: the usual formula for year ≥ 1;
for year 0 (reachable only through ISO week dates) the C code hard-codes
-366. -/
def daysBeforeYearZ (y : ℕ) : ℤ :=
  if 1 ≤ y then
    ((y : ℤ) - 1) * 365 + (((y - 1) / 4 : ℕ) : ℤ) - (((y - 1) / 100 : ℕ) : ℤ)
      + (((y - 1) / 400 : ℕ) : ℤ)
  else -366

/-- Signed proleptic Gregorian ordinal of a date, with 0001-01-01 as day 1
(C `ymd_to_ord`, which computes in C ints and goes negative for year 0). -/
def ymdToOrdZ (y m d : ℕ) : ℤ :=
  daysBeforeYearZ y + (daysBeforeMonth y m : ℤ) + (d : ℤ)

/-- C `weekday` of January 1st of year `y`, 0 = Monday; the C `%` truncates
toward zero, so for year 0 (negative ordinal) the value is negative and
never matches the week-53 gates. -/
def weekdayJan1Z (y : ℕ) : ℤ :=
  Int.tmod (ymdToOrdZ y 1 1 + 6) 7

/-- Ordinal of the Monday of ISO week 1 of year `y` (C `iso_week1_monday`,
with the same truncating `%`). -/
def isoWeek1MondayZ (y : ℕ) : ℤ :=
  let fd := ymdToOrdZ y 1 1
  let fw := Int.tmod (fd + 6) 7
  if fw > 3 then fd - fw + 7 else fd - fw

/-- Convert an ISO calendar triple (year, week, day) to a calendar date (C
`iso_to_ymd` plus the datetime constructor's validation): week 53 exists
only in ISO years starting on a Thursday, or leap years starting on a
Wednesday; the day digit must be 1..7; and the resulting ordinal must land
on a constructible date — year 1..9999. (For year 0 the C ordinal is ≤ 0
and the day computed by `ord_to_ymd` fails validation, so the ordinal
range check captures the constructor's behavior exactly.) -/
def isoToYmd (y w d : ℕ) : Option Date :=
  if (1 ≤ w ∧ w ≤ 52) ∨
     (w = 53 ∧ (weekdayJan1Z y = 3 ∨ (weekdayJan1Z y = 2 ∧ isLeapYear y = true))) then
    if 1 ≤ d ∧ d ≤ 7 then
      let ord : ℤ := isoWeek1MondayZ y + 7 * ((w : ℤ) - 1) + (d : ℤ) - 1
      if 1 ≤ ord ∧ ord ≤ ((ymdToOrd 9999 12 31 : ℕ) : ℤ) then some (ordToYmd ord.toNat)
      else none
    else none
  else none

/-- The date portion of a `fromisoformat` string (CPython 3.11
`parse_isoformat_date`): a four-digit year, then either an ISO week form
(`-Www[-D]` or `Www[D]`, with consistent separator use) or a month-day form
(`-MM-DD` or `MMDD`), consuming the whole input. -/
def parseIsoDateFull (cs : List Char) : Option Date :=
  match parseDigits 4 cs with
  | none => none
  | some (y, r0) =>
    let usesSep := match r0 with
      | '-' :: _ => true
      | _ => false
    let r1 := if usesSep then r0.tail else r0
    match r1 with
    | 'W' :: r2 =>
      match parseDigits 2 r2 with
      | none => none
      | some (w, r3) =>
        match r3 with
        | [] => isoToYmd y w 1
        | _ =>
          let r4 := if usesSep then (match r3 with
            | '-' :: t => some t
            | _ => none) else some r3
          match r4 with
          | none => none
          | some r4' =>
            match parseDigits 1 r4' with
            | some (d, []) => isoToYmd y w d
            | _ => none
    | _ =>
      match parseDigits 2 r1 with
      | none => none
      | some (mo, r2) =>
        let r3 := if usesSep then (match r2 with
          | '-' :: t => some t
          | _ => none) else some r2
        match r3 with
        | none => none
        | some r3' =>
          match parseDigits 2 r3' with
          | some (d, []) => if validDate y mo d then some ⟨y, mo, d⟩ else none
          | _ => none

/-- End of the run of ASCII digits starting at index `p` and bounded by the
string length (the scan C's separator finder performs on basic-format week
dates). The fuel `cs.length` always suffices. -/
def digitRunEnd (cs : List Char) : ℕ → ℕ → ℕ
  | 0, p => p
  | fuel + 1, p =>
    if p < cs.length ∧ (getcAt cs p).isDigit then digitRunEnd cs fuel (p + 1) else p

/-- C `find_isoformat_datetime_separator`: the position where the date part
of the string ends, decided from the string's length and the shape of its
first characters. A length-7 string separates at 7; extended forms
(`-` at index 4) separate at 10, except week dates, which separate at 8
when the day is absent and, when characters follow `YYYY-Www-`, at 8
exactly when the character at index 10 is a digit (so `2025-W25-1230` is
week + `-` + time `1230`, not week-with-day + time `30`); basic week dates
(`W` at index 4) scan the digit run from index 7 and separate at its end
when that is ≤ 8, otherwise at 7 or 8 by the run's parity; everything else
separates at 8. `none` models the C sentinel `(size_t)-1`, on which the
date parse (over an unbounded slice) always fails. -/
def findSepLoc (cs : List Char) (n : ℕ) : Option ℕ :=
  if n = 7 then some 7
  else if getcAt cs 4 = '-' then
    if getcAt cs 5 = 'W' then
      if n ≤ 7 then none
      else if n = 8 then some 8
      else if getcAt cs 8 ≠ '-' then some 8
      else if n = 9 then none
      else if n = 10 then some 10
      else if (getcAt cs 10).isDigit then some 8 else some 10
    else some 10
  else if getcAt cs 4 = 'W' then
    let pos := digitRunEnd cs cs.length 7
    if pos ≤ 8 then some pos else some (7 + pos % 2)
  else some 8

/-- Model of `datetime.fromisoformat(s).date()` for CPython 3.11 (the C
accelerator module): the date part runs up to the position named by
`find_isoformat_datetime_separator` — the whole string when it is no
longer than that position — and any single character may stand as the
date-time separator. The returned calendar date is the one written in the
string: `.date()` never normalizes the UTC offset, which only has to be
valid (total magnitude strictly under 24 hours). Returns `none` where
Python raises `ValueError`. -/
def fromisoDate (s : String) : Option Date :=
  let cs := s.toList
  let n := cs.length
  if n ≤ 6 then none
  else
    match findSepLoc cs n with
    | none => none
    | some sepLoc =>
      if n ≤ sepLoc then parseIsoDateFull (cs.take sepLoc)
      else
        match parseIsoDateFull (cs.take sepLoc) with
        | none => none
        | some d => if validTime (cs.drop (sepLoc + 1)) then some d else none

/-- One raw input line of a log file together with the outcome of Python
`json.loads` on it: `decoded = none` models a `json.JSONDecodeError`,
`decoded = some v` a successful decode to `v`. The JSON decoder is external
library code, so its outcome is part of the input data. -/
structure Line where
  raw : String
  decoded : Option JsonValue

/-- First binding of key `k` in a decoded JSON object (`log[k]` / dict
lookup; `json.loads` already resolved duplicate keys, so the association
list of an object has distinct keys). -/
def lookupKey (kvs : List (String × JsonValue)) (k : String) : Option JsonValue :=
  (kvs.find? (fun p => p.1 == k)).map (·.2)

/-- Model of `datetime.fromisoformat(log["@timestamp"]).date()` with all its
uncaught failure modes: the record is not a dict (`TypeError`), the key is
absent (`KeyError`), the value is not a string (`TypeError`), or the string
is not ISO-8601 (`ValueError`). -/
def timestampDate (v : JsonValue) : Except Err Date :=
  match v with
  | .obj kvs =>
    match lookupKey kvs "@timestamp" with
    | none => .error (.missingKey "@timestamp")
    | some (.str s) =>
      match fromisoDate s with
      | some d => .ok d
      | none => .error .badTimestamp
    | some _ => .error .timestampNotString
  | _ => .error .notAMapping

/-- The diagnostic `read_logs` prints for a line that failed to decode
(`print` of the text `Skipping invalid JSON line: ` followed by the
stripped raw line). -/
def skipMsg (l : Line) : String :=
  "Skipping invalid JSON line: " ++ pyStrip l.raw

/-- The per-line loop of `read_logs` over the concatenated lines of all
files: decode (on failure print a diagnostic and skip — the only caught
exception), then, if a date filter is active, keep the record exactly when
its timestamp's calendar date equals the filter date (errors of
`timestampDate` are uncaught and abort). Returns the diagnostics printed to
standard output and the surviving records in input order (or the fatal
error). Diagnostics printed before an abort are kept. -/
def readLines (filt : Option Date) : List Line → List String × Except Err (List JsonValue)
  | [] => ([], .ok [])
  | l :: ls =>
    match l.decoded with
    | none =>
      let (ds, r) := readLines filt ls
      (skipMsg l :: ds, r)
    | some v =>
      match filt with
      | none =>
        let (ds, r) := readLines filt ls
        (ds, r.map (v :: ·))
      | some d =>
        match timestampDate v with
        | .error e => ([], .error e)
        | .ok dv =>
          let (ds, r) := readLines filt ls
          if dv = d then (ds, r.map (v :: ·)) else (ds, r)

/-- `read_logs(file_paths, date_filter)`: parse the filter date up front
(fatal on a malformed `--date` before any file is read), then run the
per-line loop over all files' lines in order (file order, then line order).
A file's contents are given as its list of lines; opening the files is
external input/output and not modelled beyond the ordering of their lines. -/
def read_logs (files : List (List Line)) (dateFilter : Option String) :
    List String × Except Err (List JsonValue) :=
  match dateFilter with
  | none => readLines none files.flatten
  | some s =>
    match parseDateYMD s with
    | none => ([], .error .badDateFilter)
    | some d => readLines (some d) files.flatten

/-- Number of binary digits of a natural number (fuel-based structural
recursion so that concrete instances reduce inside the kernel). -/
def bitlenAux : ℕ → ℕ → ℕ
  | 0, _ => 0
  | fuel + 1, n => if n = 0 then 0 else bitlenAux fuel (n / 2) + 1

/-- Number of binary digits of `n` (`0` for `n = 0`). -/
def bitlen (n : ℕ) : ℕ :=
  bitlenAux n n

/-- Floor of the base-2 logarithm of a positive rational. -/
def flog2 (q : ℚ) : ℤ :=
  let e0 : ℤ := (bitlen q.num.natAbs : ℤ) - (bitlen q.den : ℤ)
  if (2 : ℚ) ^ e0 ≤ q then e0 else e0 - 1

/-- Round a rational to an integer, ties to even (the IEEE-754 default
rounding direction, also used by CPython's fixed-point float formatting). -/
def rhe (q : ℚ) : ℤ :=
  let f := q.floor
  if q - f < 1 / 2 then f
  else if (1 : ℚ) / 2 < q - f then f + 1
  else if f % 2 = 0 then f else f + 1

/-- Round an exact rational to the nearest IEEE-754 binary64 value
(53-significant-bit significand, ties to even, subnormal quantum `2^-1074`).
A finite double is identified with the rational number it denotes. The model
covers the finite range; the magnitudes arising in this development stay far
below the overflow threshold, so infinities and NaNs are not modelled. -/
def roundF (q : ℚ) : ℚ :=
  if q = 0 then 0
  else
    let e : ℤ := max (flog2 (if q < 0 then -q else q) - 52) (-1074)
    rhe (q / (2 : ℚ) ^ e) * (2 : ℚ) ^ e

/-- IEEE-754 binary64 addition: round the exact sum. -/
def fadd (a b : ℚ) : ℚ :=
  roundF (a + b)

/-- IEEE-754 binary64 division by a (converted) natural count: round the
exact quotient, as Python's true division of a float by an int does. -/
def fdiv (a : ℚ) (n : ℕ) : ℚ :=
  roundF (a / (n : ℚ))

/-- Left-pad the decimal representation of `n < 1000` to three digits. -/
def pad3 (n : ℕ) : String :=
  if n < 10 then "00" ++ toString n
  else if n < 100 then "0" ++ toString n
  else toString n

/-- Python fixed-point formatting `f"{x:.3f}"` of a finite double: the
decimal numeral with exactly three fractional digits closest to the double's
exact value, ties to even (CPython formats floats correctly rounded). The
sign of a negative zero result is not modelled (no negative values arise
here). -/
def format3 (q : ℚ) : String :=
  let n := rhe (q * 1000)
  let sign := if n < 0 then "-" else ""
  let m := n.natAbs
  sign ++ toString (m / 1000) ++ "." ++ pad3 (m % 1000)

/-- Decimal significand-and-exponent forms accepted by Python's
`float(string)`: `digits[.digits][e±digits]`, `.digits[e±digits]`,
`digits.[e±digits]`, with an optional leading sign and surrounding
whitespace. Returns the exact rational value written (the conversion to a
double is `roundF`). The special spellings `inf`/`nan` and digit-group
underscores are not modelled (no claim concerns them). -/
def parseDecimalCore (cs : List Char) : Option ℚ :=
  let (intPart, rest) := (cs.takeWhile (·.isDigit), cs.dropWhile (·.isDigit))
  let (fracPart, rest2) : List Char × List Char :=
    match rest with
    | '.' :: t => (t.takeWhile (·.isDigit), t.dropWhile (·.isDigit))
    | _ => ([], rest)
  let hasDot := match rest with | '.' :: _ => true | _ => false
  if intPart.isEmpty && fracPart.isEmpty then none
  else
    let mantissa : ℚ :=
      (digitsToNat intPart : ℚ) + (digitsToNat fracPart : ℚ) / (10 : ℚ) ^ fracPart.length
    match rest2 with
    | [] => some mantissa
    | e :: t =>
      if (e = 'e' || e = 'E') && (hasDot || !fracPart.isEmpty || !intPart.isEmpty) then
        let (esign, edigits) :=
          match t with
          | '+' :: t' => ((1 : ℤ), t')
          | '-' :: t' => ((-1 : ℤ), t')
          | _ => ((1 : ℤ), t)
        if edigits.isEmpty || !allDigits edigits then none
        else some (mantissa * (10 : ℚ) ^ (esign * digitsToNat edigits))
      else none

/-- Python `float(string)`: optional surrounding whitespace and sign, then a
decimal numeral. -/
def parsePyFloat (s : String) : Option ℚ :=
  match (pyStrip s).toList with
  | '+' :: cs => parseDecimalCore cs
  | '-' :: cs => (parseDecimalCore cs).map (- ·)
  | cs => parseDecimalCore cs

/-- Python `float(v)` on a decoded JSON value: numbers convert to the
nearest double (for a JSON float literal `json.loads` itself already
performed this conversion; rounding is idempotent, so applying it here is
equivalent), booleans convert as `1.0`/`0.0`, strings are parsed as decimal
numerals, and everything else raises (`ValueError`/`TypeError`). -/
def pyFloat (v : JsonValue) : Except Err ℚ :=
  match v with
  | .num q => .ok (roundF q)
  | .bool b => .ok (if b then 1 else 0)
  | .str s =>
    match parsePyFloat s with
    | some q => .ok (roundF q)
    | none => .error .badFloat
  | _ => .error .badFloat

/-- Model of `s.split(c)[0]`: the longest initial segment of `s` before the
first occurrence of `c`. -/
def splitBefore (c : Char) (s : String) : String :=
  (s.toList.takeWhile (· ≠ c)).asString

/-- URL normalization of the average report:
`endpoint = log["url"].split('?')[0].split('#')[0]`. -/
def normalizeUrl (s : String) : String :=
  splitBefore '#' (splitBefore '?' s)

/-- `log["url"]` followed by `.split`: the record must be a dict
(`TypeError`), the key must be present (`KeyError`), and the value must be a
string (`AttributeError` on `.split` otherwise). -/
def getUrl (v : JsonValue) : Except Err String :=
  match v with
  | .obj kvs =>
    match lookupKey kvs "url" with
    | some (.str s) => .ok s
    | some _ => .error .urlNotString
    | none => .error (.missingKey "url")
  | _ => .error .notAMapping

/-- `log["response_time"]`: dict subscript with its `TypeError`/`KeyError`
failure modes. -/
def getResponseTime (v : JsonValue) : Except Err JsonValue :=
  match v with
  | .obj kvs =>
    match lookupKey kvs "response_time" with
    | some w => .ok w
    | none => .error (.missingKey "response_time")
  | _ => .error .notAMapping

/-- The two per-record reads of the average-report loop, in program order:
`endpoint = log["url"].split('?')[0].split('#')[0]` and
`time = float(log["response_time"])`. -/
def entryOf (log : JsonValue) : Except Err (String × ℚ) := do
  let u ← getUrl log
  let t ← getResponseTime log >>= pyFloat
  pure (normalizeUrl u, t)

/-- One step of the `endpoint_stats` accumulation: the `defaultdict` keyed
by endpoint holds `(count, total_time)`, created as `(0, 0)` on first touch
and then updated by `count += 1; total_time += time` (float addition). The
association list preserves dict insertion order. -/
def updateStats : List (String × ℕ × ℚ) → String → ℚ → List (String × ℕ × ℚ)
  | [], e, t => [(e, 1, fadd 0 t)]
  | (k, c, tot) :: rest, e, t =>
    if k = e then (k, c + 1, fadd tot t) :: rest
    else (k, c, tot) :: updateStats rest e t

/-- The accumulation loop of `AverageReport.generate` over all records. -/
def accumStats (logs : List JsonValue) : Except Err (List (String × ℕ × ℚ)) :=
  logs.foldlM (fun m log => (entryOf log).map (fun p => updateStats m p.1 p.2)) []

/-- Python string `<`: lexicographic (ordinal) comparison of the two
strings' code-point sequences. -/
def charListLt : List Char → List Char → Bool
  | [], [] => false
  | [], _ :: _ => true
  | _ :: _, [] => false
  | a :: as, b :: bs =>
    if a.toNat < b.toNat then true
    else if b.toNat < a.toNat then false
    else charListLt as bs

/-- Python string `<` on `String`. -/
def strLt (a b : String) : Bool :=
  charListLt a.toList b.toList

/-- Python string `<=` (equivalently, not greater). -/
def strLe (a b : String) : Bool :=
  !strLt b a

/-- Stable insertion of a row into a row list already sorted by first
component. -/
def insertRow {β : Type} (x : String × β) : List (String × β) → List (String × β)
  | [] => [x]
  | y :: ys => if strLe x.1 y.1 then x :: y :: ys else y :: insertRow x ys

/-- Python `sorted(rows, key=lambda x: x[0])` for rows with a string first
component: a stable sort ascending by the first component under ordinal
string comparison (`sorted(ua_stats.items())` compares tuples, which for
the distinct keys produced here is the same as comparing first components). -/
def sortByFirst {β : Type} : List (String × β) → List (String × β)
  | [] => []
  | x :: xs => insertRow x (sortByFirst xs)

/-- `AverageReport.generate`: accumulate `(count, total_time)` per
normalized endpoint, then emit one row `[endpoint, count, f"{avg:.3f}"]` per
endpoint with `avg = total_time / count`, sorted by endpoint. -/
def AverageReport.generate (logs : List JsonValue) :
    Except Err (List (String × ℕ × String) × List String) := do
  let stats ← accumStats logs
  let report := stats.map (fun p => (p.1, p.2.1, format3 (fdiv p.2.2 p.2.1)))
  pure (sortByFirst report, ["Endpoint", "Count", "Average Time"])

/-- `log.get("http_user_agent", "Unknown")`: a record that is not a dict has
no `.get` (`AttributeError`); a missing key yields the sentinel `"Unknown"`.
The model restricts grouping keys to strings (`uaNotString` for a present
non-string value): Python would accept any hashable value and only fail at
`sorted` on mutually incomparable keys, but the data model fixes
`http_user_agent` to be a string when present, and no claim concerns other
types. -/
def getUA (v : JsonValue) : Except Err String :=
  match v with
  | .obj kvs =>
    match lookupKey kvs "http_user_agent" with
    | none => .ok "Unknown"
    | some (.str s) => .ok s
    | some _ => .error .uaNotString
  | _ => .error .notAMapping

/-- One step of the `ua_stats` counter: `defaultdict(int)` bump, preserving
dict insertion order. -/
def bumpUA : List (String × ℕ) → String → List (String × ℕ)
  | [], ua => [(ua, 1)]
  | (k, c) :: rest, ua =>
    if k = ua then (k, c + 1) :: rest
    else (k, c) :: bumpUA rest ua

/-- The accumulation loop of `UserAgentReport.generate`. -/
def accumUA (logs : List JsonValue) : Except Err (List (String × ℕ)) :=
  logs.foldlM (fun m log => (getUA log).map (bumpUA m)) []

/-- `UserAgentReport.generate`: count records per user-agent value and emit
`[user_agent, count]` rows sorted by user agent. -/
def UserAgentReport.generate (logs : List JsonValue) :
    Except Err (List (String × ℕ) × List String) := do
  let stats ← accumUA logs
  pure (sortByFirst stats, ["User-Agent", "Count"])

/-- The strategy variants behind the `ReportStrategy` interface. -/
inductive Strategy where
  | average
  | user_agent
deriving DecidableEq

/-- `get_report_strategy`: the name-to-strategy registry lookup
(`strategies.get(report_type)`). -/
def get_report_strategy (reportType : String) : Option Strategy :=
  if reportType = "average" then some Strategy.average
  else if reportType = "user_agent" then some Strategy.user_agent
  else none

/-- The `(rows, headers)` pair handed to the external `tabulate` formatter. -/
inductive ReportOut where
  | avg (rows : List (String × ℕ × String)) (headers : List String)
  | ua (rows : List (String × ℕ)) (headers : List String)

/-- `main()`: `parse_args` validates `--report` against
`choices=["average", "user_agent"]` and aborts on any other value before
`read_logs` runs; then the logs are read, the strategy is looked up (the
`ValueError` branch for a `None` strategy is unreachable past `argparse`),
and the report is generated. The first component is everything printed to
standard output before the table (the skipped-line diagnostics). -/
def main (files : List (List Line)) (reportType : String) (dateArg : Option String) :
    List String × Except Err ReportOut :=
  if reportType = "average" ∨ reportType = "user_agent" then
    let (ds, r) := read_logs files dateArg
    match r with
    | .error e => (ds, .error e)
    | .ok logs =>
      match get_report_strategy reportType with
      | none => (ds, .error .unknownReport)
      | some .average =>
        (ds, (AverageReport.generate logs).map (fun p => .avg p.1 p.2))
      | some .user_agent =>
        (ds, (UserAgentReport.generate logs).map (fun p => .ua p.1 p.2))
  else ([], .error .argparseChoices)

/-- Decidable equality for `Except` results, used to evaluate the program
on concrete inputs inside proofs. -/
instance {ε α : Type} [DecidableEq ε] [DecidableEq α] : DecidableEq (Except ε α) := fun a b =>
  match a, b with
  | .ok x, .ok y =>
    if h : x = y then isTrue (by rw [h]) else isFalse (fun hc => by cases hc; exact h rfl)
  | .error x, .error y =>
    if h : x = y then isTrue (by rw [h]) else isFalse (fun hc => by cases hc; exact h rfl)
  | .ok _, .error _ => isFalse (fun hc => by cases hc)
  | .error _, .ok _ => isFalse (fun hc => by cases hc)

/-- Modelled from the spec: format a nonnegative exact value to exactly
three decimal digits, rounding half away from zero (the spec's alternative
candidate rounding rule for the average column; the half-to-even candidate
is `format3` itself applied to the exact value). -/
def roundHalfAway3 (q : ℚ) : String :=
  let n := ((q * 1000 + 1 / 2 : ℚ).floor).natAbs
  toString (n / 1000) ++ "." ++ pad3 (n % 1000)

/-- Whether a decoded JSON value is a mapping (a JSON object). -/
def isMapping : JsonValue → Bool
  | .obj _ => true
  | _ => false

/-- Which records survive the date filter: the decoded value of a line is
kept exactly when its timestamp's calendar date equals the filter date. -/
def keptByFilter (d : Date) (l : Line) : Option JsonValue :=
  match l.decoded with
  | none => none
  | some v =>
    match timestampDate v with
    | .ok dv => if dv = d then some v else none
    | .error _ => none

/-- The per-record normalized endpoint and parsed response time of every
record of the list, in order (records on which the reads fail contribute
nothing; in a successful run they cannot occur). -/
def entryVals (logs : List JsonValue) : List (String × ℚ) :=
  logs.filterMap (fun log => (entryOf log).toOption)

/-- The parsed response times of the records whose normalized endpoint is
`e`, in input order. -/
def tsOf (e : String) (logs : List JsonValue) : List ℚ :=
  logs.filterMap (fun log =>
    (entryOf log).toOption.bind (fun p => if p.1 = e then some p.2 else none))

/-- The user-agent group key of every record of the list, in order
(`http_user_agent` verbatim, `"Unknown"` when absent). -/
def uaVals (logs : List JsonValue) : List String :=
  logs.filterMap (fun log => (getUA log).toOption)

/-- Total count a user-agent counter holds after absorbing `n` further
occurrences, starting from an existing counter (`some`) or a fresh one
(`none`). -/
def combineCount : Option ℕ → ℕ → Option ℕ
  | none, 0 => none
  | none, n + 1 => some (n + 1)
  | some c, n => some (c + n)

/-- Total count and running float sum a stats entry holds after absorbing
the times `ts`, starting from an existing entry (`some`) or a fresh one
(`none`). -/
def combineStat : Option (ℕ × ℚ) → List ℚ → Option (ℕ × ℚ)
  | none, [] => none
  | none, t :: ts => some (ts.length + 1, ts.foldl fadd (fadd 0 t))
  | some p, ts => some (p.1 + ts.length, ts.foldl fadd p.2)

/-- The entry of the accumulated endpoint statistics at key `k`. -/
def lookupStat (k : String) : List (String × ℕ × ℚ) → Option (ℕ × ℚ)
  | [] => none
  | p :: rest => if p.1 = k then some p.2 else lookupStat k rest

/-- The count of the accumulated user-agent statistics at key `k`. -/
def lookupCount (k : String) : List (String × ℕ) → Option ℕ
  | [] => none
  | p :: rest => if p.1 = k then some p.2 else lookupCount k rest

end LogReport

namespace LogReport

section Theorems

attribute [local semireducible] Rat.add Rat.sub Rat.mul Rat.inv

set_option maxRecDepth 40000

theorem readLines_nil (filt : Option Date) : readLines filt [] = ([], .ok []) := rfl

theorem readLines_cons_invalid (filt : Option Date) (l : Line) (ls : List Line)
    (h : l.decoded = none) :
    readLines filt (l :: ls) =
      (skipMsg l :: (readLines filt ls).1, (readLines filt ls).2) := by
  cases hX : readLines filt ls with
  | mk a b => simp [readLines, h, hX]

theorem readLines_cons_nofilter (l : Line) (ls : List Line) (v : JsonValue)
    (h : l.decoded = some v) :
    readLines none (l :: ls) =
      ((readLines none ls).1, (readLines none ls).2.map (v :: ·)) := by
  cases hX : readLines none ls with
  | mk a b => simp [readLines, h, hX]

theorem readLines_cons_tsError (d : Date) (l : Line) (ls : List Line) (v : JsonValue)
    (e : Err) (hv : l.decoded = some v) (he : timestampDate v = .error e) :
    readLines (some d) (l :: ls) = ([], .error e) := by
  simp [readLines, hv, he]

theorem readLines_cons_keep (d : Date) (l : Line) (ls : List Line) (v : JsonValue)
    (hv : l.decoded = some v) (hok : timestampDate v = .ok d) :
    readLines (some d) (l :: ls) =
      ((readLines (some d) ls).1, (readLines (some d) ls).2.map (v :: ·)) := by
  cases hX : readLines (some d) ls with
  | mk a b => simp [readLines, hv, hok, hX]

theorem readLines_cons_drop (d : Date) (l : Line) (ls : List Line) (v : JsonValue)
    (dv : Date) (hv : l.decoded = some v) (hok : timestampDate v = .ok dv)
    (hne : dv ≠ d) :
    readLines (some d) (l :: ls) = readLines (some d) ls := by
  cases hX : readLines (some d) ls with
  | mk a b => simp [readLines, hv, hok, hX, hne]

theorem charListLt_asymm : ∀ as bs, charListLt as bs = true → charListLt bs as = false
  | [], [] => by simp [charListLt]
  | [], _ :: _ => by simp [charListLt]
  | _ :: _, [] => by simp [charListLt]
  | a :: as, b :: bs => by
    simp only [charListLt]
    intro h
    by_cases h1 : a.toNat < b.toNat
    · rw [if_neg (by omega : ¬ b.toNat < a.toNat), if_pos h1]
    · by_cases h2 : b.toNat < a.toNat
      · rw [if_neg h1, if_pos h2] at h
        cases h
      · rw [if_neg h1, if_neg h2] at h
        rw [if_neg h2, if_neg h1]
        exact charListLt_asymm as bs h

theorem charListLt_eq_of_not : ∀ as bs, charListLt as bs = false → charListLt bs as = false →
    as = bs
  | [], [] => by simp
  | [], _ :: _ => by simp [charListLt]
  | _ :: _, [] => by simp [charListLt]
  | a :: as, b :: bs => by
    simp only [charListLt]
    intro h1 h2
    by_cases hab : a.toNat < b.toNat
    · rw [if_pos hab] at h1
      cases h1
    · by_cases hba : b.toNat < a.toNat
      · rw [if_pos hba] at h2
        cases h2
      · have hn : a.toNat = b.toNat := by omega
        have hv : a.val.toNat = b.val.toNat := hn
        have hc : a = b := Char.eq_of_val_eq (UInt32.toNat.inj hv)
        rw [if_neg hab, if_neg hba] at h1
        rw [if_neg hba, if_neg hab] at h2
        exact hc ▸ congrArg (a :: ·) (charListLt_eq_of_not as bs h1 h2)

theorem charListLt_nil_right : ∀ as, charListLt as [] = false
  | [] => rfl
  | _ :: _ => rfl

theorem charListLt_trans : ∀ as bs cs, charListLt as bs = true → charListLt bs cs = true →
    charListLt as cs = true
  | _, [], _ => by
    intro h _
    rw [charListLt_nil_right] at h
    cases h
  | _, _, [] => by
    intro _ h
    rw [charListLt_nil_right] at h
    cases h
  | [], _ :: _, _ :: _ => by simp [charListLt]
  | a :: as, b :: bs, c :: cs => by
    simp only [charListLt]
    intro h1 h2
    by_cases hab : a.toNat < b.toNat
    · by_cases hbc : b.toNat < c.toNat
      · rw [if_pos (by omega : a.toNat < c.toNat)]
      · by_cases hcb : c.toNat < b.toNat
        · rw [if_neg hbc, if_pos hcb] at h2
          cases h2
        · rw [if_pos (by omega : a.toNat < c.toNat)]
    · by_cases hba : b.toNat < a.toNat
      · rw [if_neg hab, if_pos hba] at h1
        cases h1
      · by_cases hbc : b.toNat < c.toNat
        · rw [if_pos (by omega : a.toNat < c.toNat)]
        · by_cases hcb : c.toNat < b.toNat
          · rw [if_neg hbc, if_pos hcb] at h2
            cases h2
          · rw [if_neg hab, if_neg hba] at h1
            rw [if_neg hbc, if_neg hcb] at h2
            rw [if_neg (by omega : ¬ a.toNat < c.toNat),
              if_neg (by omega : ¬ c.toNat < a.toNat)]
            exact charListLt_trans as bs cs h1 h2

theorem charListLt_notlt_trans (as bs cs : List Char) (h1 : charListLt bs as = false)
    (h2 : charListLt cs bs = false) : charListLt cs as = false := by
  by_cases hca : charListLt cs as = true
  · by_cases hasbs : charListLt as bs = true
    · have := charListLt_trans cs as bs hca hasbs
      rw [this] at h2
      cases h2
    · have : as = bs := charListLt_eq_of_not as bs (by simpa using hasbs) h1
      rw [← this] at h2
      rw [hca] at h2
      cases h2
  · simpa using hca

theorem strLe_total (a b : String) : strLe a b = true ∨ strLe b a = true := by
  cases h : charListLt b.toList a.toList with
  | false =>
    left
    unfold strLe strLt
    rw [h]
    rfl
  | true =>
    right
    unfold strLe strLt
    rw [charListLt_asymm _ _ h]
    rfl

theorem strLe_trans (a b c : String) (h1 : strLe a b = true) (h2 : strLe b c = true) :
    strLe a c = true := by
  unfold strLe strLt at h1 h2 ⊢
  rw [Bool.not_eq_true'] at h1 h2 ⊢
  exact charListLt_notlt_trans a.toList b.toList c.toList h1 h2

theorem insertRow_perm {β : Type} (x : String × β) (l : List (String × β)) :
    List.Perm (insertRow x l) (x :: l) := by
  induction l with
  | nil => exact List.Perm.refl _
  | cons y ys ih =>
    unfold insertRow
    by_cases h : strLe x.1 y.1 = true
    · simp [h]
    · simp only [if_neg h]
      exact (ih.cons y).trans (List.Perm.swap x y ys)

theorem sortByFirst_perm {β : Type} (l : List (String × β)) : List.Perm (sortByFirst l) l := by
  induction l with
  | nil => exact List.Perm.refl _
  | cons x xs ih => exact (insertRow_perm x (sortByFirst xs)).trans (ih.cons x)

theorem insertRow_pairwise {β : Type} (x : String × β) (l : List (String × β))
    (h : l.Pairwise (fun a b => strLe a.1 b.1 = true)) :
    (insertRow x l).Pairwise (fun a b => strLe a.1 b.1 = true) := by
  induction l with
  | nil => simp [insertRow]
  | cons y ys ih =>
    rw [List.pairwise_cons] at h
    unfold insertRow
    by_cases hle : strLe x.1 y.1 = true
    · simp only [if_pos hle]
      refine List.Pairwise.cons ?_ (List.Pairwise.cons h.1 h.2)
      intro z hz
      rcases List.mem_cons.mp hz with rfl | hz
      · exact hle
      · exact strLe_trans _ _ _ hle (h.1 z hz)
    · simp only [if_neg hle]
      refine List.Pairwise.cons ?_ (ih h.2)
      intro z hz
      have hz' := (insertRow_perm x ys).mem_iff.mp hz
      rcases List.mem_cons.mp hz' with rfl | hz'
      · rcases strLe_total z.1 y.1 with h' | h'
        · exact absurd h' hle
        · exact h'
      · exact h.1 z hz'

theorem sortByFirst_sorted {β : Type} (l : List (String × β)) :
    (sortByFirst l).Pairwise (fun a b => strLe a.1 b.1 = true) := by
  induction l with
  | nil => simp [sortByFirst]
  | cons x xs ih => exact insertRow_pairwise x (sortByFirst xs) ih

theorem readLines_none_eq (ls : List Line) :
    readLines none ls =
      ((ls.filter (fun l => l.decoded.isNone)).map skipMsg,
       .ok (ls.filterMap Line.decoded)) := by
  induction ls with
  | nil => rfl
  | cons l ls ih =>
    cases h : l.decoded with
    | none =>
      rw [readLines_cons_invalid none l ls h, ih]
      simp [List.filter_cons, List.filterMap_cons, h]
    | some v =>
      rw [readLines_cons_nofilter l ls v h, ih]
      simp only [List.filter_cons, List.filterMap_cons, h, Option.isNone_some]
      rfl

theorem readLines_ok_mem (filt : Option Date) :
    ∀ (ls : List Line) (ds : List String) (recs : List JsonValue),
      readLines filt ls = (ds, .ok recs) → ∀ v ∈ recs, ∃ l, l ∈ ls ∧ l.decoded = some v := by
  intro ls
  induction ls with
  | nil =>
    intro ds recs h v hv
    rw [readLines_nil] at h
    cases h
    cases hv
  | cons l ls ih =>
    intro ds recs h v hv
    cases hrec : readLines filt ls with
    | mk ds' r' =>
      cases hdec : l.decoded with
      | none =>
        rw [readLines_cons_invalid filt l ls hdec, hrec] at h
        injection h with h1 h2
        cases r' with
        | error e => cases h2
        | ok xs =>
          cases h2
          obtain ⟨l', hl', hd'⟩ := ih ds' _ hrec v hv
          exact ⟨l', List.mem_cons_of_mem l hl', hd'⟩
      | some w =>
        cases filt with
        | none =>
          rw [readLines_cons_nofilter l ls w hdec, hrec] at h
          injection h with h1 h2
          cases r' with
          | error e => cases h2
          | ok xs =>
            cases h2
            rcases List.mem_cons.mp hv with rfl | hv'
            · exact ⟨l, List.mem_cons_self l ls, hdec⟩
            · obtain ⟨l', hl', hd'⟩ := ih ds' xs hrec v hv'
              exact ⟨l', List.mem_cons_of_mem l hl', hd'⟩
        | some d =>
          cases htd : timestampDate w with
          | error e =>
            rw [readLines_cons_tsError d l ls w e hdec htd] at h
            cases h
          | ok dv =>
            by_cases hdd : dv = d
            · subst hdd
              rw [readLines_cons_keep dv l ls w hdec htd, hrec] at h
              injection h with h1 h2
              cases r' with
              | error e => cases h2
              | ok xs =>
                cases h2
                rcases List.mem_cons.mp hv with rfl | hv'
                · exact ⟨l, List.mem_cons_self l ls, hdec⟩
                · obtain ⟨l', hl', hd'⟩ := ih ds' xs hrec v hv'
                  exact ⟨l', List.mem_cons_of_mem l hl', hd'⟩
            · rw [readLines_cons_drop d l ls w dv hdec htd hdd] at h
              obtain ⟨l', hl', hd'⟩ := ih ds recs h v hv
              exact ⟨l', List.mem_cons_of_mem l hl', hd'⟩

theorem readLines_filter_eq (d : Date) :
    ∀ ls : List Line,
      (∀ l ∈ ls, ∀ v, l.decoded = some v → ∃ dv, timestampDate v = .ok dv) →
      readLines (some d) ls =
        ((ls.filter (fun l => l.decoded.isNone)).map skipMsg,
         .ok (ls.filterMap (keptByFilter d))) := by
  intro ls
  induction ls with
  | nil => intro _; rfl
  | cons l ls ih =>
    intro hok
    have hok' : ∀ l' ∈ ls, ∀ v, l'.decoded = some v → ∃ dv, timestampDate v = .ok dv :=
      fun l' hl' => hok l' (List.mem_cons_of_mem l hl')
    cases hdec : l.decoded with
    | none =>
      rw [readLines_cons_invalid (some d) l ls hdec, ih hok']
      simp [List.filter_cons, List.filterMap_cons, hdec, keptByFilter]
    | some v =>
      obtain ⟨dv, htd⟩ := hok l (List.mem_cons_self l ls) v hdec
      by_cases hdd : dv = d
      · subst hdd
        rw [readLines_cons_keep dv l ls v hdec htd, ih hok']
        simp only [List.filter_cons, List.filterMap_cons, hdec, keptByFilter, htd,
          Option.isNone_some, if_pos rfl]
        rfl
      · rw [readLines_cons_drop d l ls v dv hdec htd hdd, ih hok']
        simp [List.filter_cons, List.filterMap_cons, hdec, keptByFilter, htd, hdd]

theorem readLines_error_of_bad (d : Date) :
    ∀ ls : List Line,
      (∃ l, l ∈ ls ∧ ∃ v, l.decoded = some v ∧ ∃ e, timestampDate v = .error e) →
      ∃ e, (readLines (some d) ls).2 = .error e := by
  intro ls
  induction ls with
  | nil =>
    intro h
    obtain ⟨l, hl, _⟩ := h
    cases hl
  | cons l ls ih =>
    intro hbad
    obtain ⟨l0, hl0, v0, hdec0, e0, htd0⟩ := hbad
    cases hdec : l.decoded with
    | none =>
      have hl0' : l0 ∈ ls := by
        rcases List.mem_cons.mp hl0 with rfl | h'
        · rw [hdec] at hdec0; cases hdec0
        · exact h'
      obtain ⟨e, he⟩ := ih ⟨l0, hl0', v0, hdec0, e0, htd0⟩
      refine ⟨e, ?_⟩
      rw [readLines_cons_invalid (some d) l ls hdec]
      exact he
    | some v =>
      cases htd : timestampDate v with
      | error e =>
        refine ⟨e, ?_⟩
        rw [readLines_cons_tsError d l ls v e hdec htd]
      | ok dv =>
        have hl0' : l0 ∈ ls := by
          rcases List.mem_cons.mp hl0 with rfl | h'
          · rw [hdec] at hdec0
            cases hdec0
            rw [htd] at htd0
            cases htd0
          · exact h'
        obtain ⟨e, he⟩ := ih ⟨l0, hl0', v0, hdec0, e0, htd0⟩
        by_cases hdd : dv = d
        · subst hdd
          rw [readLines_cons_keep dv l ls v hdec htd]
          refine ⟨e, ?_⟩
          cases hrec : (readLines (some dv) ls).2 with
          | error e' => rw [hrec] at he; cases he; rfl
          | ok xs => rw [hrec] at he; cases he
        · rw [readLines_cons_drop d l ls v dv hdec htd hdd]
          exact ⟨e, he⟩

/-- C8: every input line that fails to decode as JSON contributes exactly the
diagnostic `Skipping invalid JSON line: <stripped raw line>` to standard
output, is excluded from the returned record sequence, and reading continues
through all remaining lines and files without aborting: with no date filter
the run always succeeds, returning a diagnostic per invalid line (in order)
and precisely the decoded values of the valid lines (in order). -/
theorem invalidJsonSkippedWithDiagnostic (files : List (List Line)) :
    read_logs files none =
      ((files.flatten.filter (fun l => l.decoded.isNone)).map skipMsg,
       .ok (files.flatten.filterMap Line.decoded)) := by
  unfold read_logs
  exact readLines_none_eq files.flatten

/-- C2 (amended): every element of a successful `read_logs` result is the
`json.loads` value of some input line — but it need not be a mapping:
`read_logs` performs no mapping check, so any successfully decoded JSON
value (number, string, array, ...) is returned as-is. -/
theorem readLogsElemsAreDecodedValues (files : List (List Line)) (filt : Option String)
    (ds : List String) (recs : List JsonValue)
    (h : read_logs files filt = (ds, .ok recs)) :
    ∀ v ∈ recs, ∃ l, l ∈ files.flatten ∧ l.decoded = some v := by
  cases filt with
  | none => exact readLines_ok_mem none files.flatten ds recs h
  | some s =>
    cases hp : parseDateYMD s with
    | none =>
      simp only [read_logs, hp] at h
      injection h with h1 h2
      cases h2
    | some d =>
      simp only [read_logs, hp] at h
      exact readLines_ok_mem (some d) files.flatten ds recs h

/-- C2 (counterexample): the line `42` decodes to the JSON number `42`,
which is not a mapping, yet `read_logs` returns it: the claim that every
element of the result is a mapping is false. -/
theorem readLogsKeepsNonMapping :
    read_logs [[⟨"42", some (.num 42)⟩]] none = ([], .ok [.num 42]) ∧
      isMapping (.num 42) = false :=
  ⟨rfl, rfl⟩

/-- C2 (witness): the amended theorem applied to the run that returns the
bare number `42`. -/
theorem readLogsElemsAreDecodedValues_w :
    ∃ l, l ∈ [Line.mk "42" (some (.num 42))] ∧ l.decoded = some (.num 42) :=
  readLogsElemsAreDecodedValues [[⟨"42", some (.num 42)⟩]] none [] [.num 42] rfl
    (.num 42) (List.mem_singleton.mpr rfl)

/-- C4: with an active date filter (a `--date` value that parses), and every
decodable line carrying a parsable timestamp, `read_logs` keeps a decoded
record exactly when the calendar date written in its `@timestamp` (taken
naively — the UTC offset is not normalized away) equals the filter date;
non-matching records are dropped silently, the only diagnostics being those
of undecodable lines. -/
theorem dateFilterExactMatch (files : List (List Line)) (s : String) (d : Date)
    (hd : parseDateYMD s = some d)
    (hok : ∀ l ∈ files.flatten, ∀ v, l.decoded = some v → ∃ dv, timestampDate v = .ok dv) :
    read_logs files (some s) =
      ((files.flatten.filter (fun l => l.decoded.isNone)).map skipMsg,
       .ok (files.flatten.filterMap (keptByFilter d))) := by
  simp only [read_logs, hd]
  exact readLines_filter_eq d files.flatten hok

/-- C4 (witness): filtering for 2025-06-22 keeps the record stamped
`2025-06-22T01:00:00+00:00` and silently drops the one stamped
`2025-06-23T00:30:00+05:00` (whose naive date is 2025-06-23 even though its
UTC instant falls on 2025-06-22), with no diagnostics. -/
theorem dateFilterExactMatch_w :
    read_logs
        [[⟨"a", some (.obj [("@timestamp", .str "2025-06-22T01:00:00+00:00")])⟩],
         [⟨"b", some (.obj [("@timestamp", .str "2025-06-23T00:30:00+05:00")])⟩]]
        (some "2025-06-22") =
      ([], .ok [.obj [("@timestamp", .str "2025-06-22T01:00:00+00:00")]]) := by
  rw [dateFilterExactMatch _ "2025-06-22" ⟨2025, 6, 22⟩ rfl ?_]
  · rfl
  · intro l hl v hv
    have hl' : l = ⟨"a", some (.obj [("@timestamp", .str "2025-06-22T01:00:00+00:00")])⟩ ∨
        l = ⟨"b", some (.obj [("@timestamp", .str "2025-06-23T00:30:00+05:00")])⟩ := by
      simpa using hl
    rcases hl' with rfl | rfl
    · cases hv
      exact ⟨⟨2025, 6, 22⟩, rfl⟩
    · cases hv
      exact ⟨⟨2025, 6, 23⟩, rfl⟩

/-- C3: when a date filter is active, a decodable line whose record lacks an
`@timestamp` key, or whose `@timestamp` string is not parsable as an
ISO-8601 datetime, makes `read_logs` abort with an uncaught error (the
JSON-decode handler catches only decode errors, so the run fails). -/
theorem badTimestampFatal (files : List (List Line)) (s : String) (d : Date)
    (hd : parseDateYMD s = some d)
    (hbad : ∃ l, l ∈ files.flatten ∧ ∃ kvs, l.decoded = some (.obj kvs) ∧
      (lookupKey kvs "@timestamp" = none ∨
       ∃ ts, lookupKey kvs "@timestamp" = some (.str ts) ∧ fromisoDate ts = none)) :
    ∃ e, (read_logs files (some s)).2 = .error e := by
  simp only [read_logs, hd]
  apply readLines_error_of_bad
  obtain ⟨l, hl, kvs, hdec, hcase⟩ := hbad
  refine ⟨l, hl, .obj kvs, hdec, ?_⟩
  rcases hcase with hnone | ⟨ts, hts, hbadts⟩
  · exact ⟨.missingKey "@timestamp", by simp [timestampDate, hnone]⟩
  · exact ⟨.badTimestamp, by simp [timestampDate, hts, hbadts]⟩

/-- C3 (witness): with filter `2025-06-22`, a well-formed JSON object line
with no `@timestamp` key aborts the run. -/
theorem badTimestampFatal_w :
    ∃ e, (read_logs [[⟨"{}", some (.obj [])⟩]] (some "2025-06-22")).2 = .error e :=
  badTimestampFatal [[⟨"{}", some (.obj [])⟩]] "2025-06-22" ⟨2025, 6, 22⟩ rfl
    ⟨⟨"{}", some (.obj [])⟩, by simp, [], rfl, Or.inl rfl⟩

theorem updateStats_fst (m : List (String × ℕ × ℚ)) (e : String) (t : ℚ) :
    (updateStats m e t).map Prod.fst =
      if e ∈ m.map Prod.fst then m.map Prod.fst else m.map Prod.fst ++ [e] := by
  induction m with
  | nil => simp [updateStats]
  | cons p m ih =>
    by_cases h : p.1 = e
    · simp [updateStats, h]
    · simp only [updateStats, if_neg h, List.map_cons, ih, List.mem_cons]
      by_cases hm : e ∈ m.map Prod.fst
      · simp [hm, Ne.symm h]
      · simp [hm, Ne.symm h]

theorem updateStats_sum (m : List (String × ℕ × ℚ)) (e : String) (t : ℚ) :
    ((updateStats m e t).map (fun p => p.2.1)).sum = ((m.map (fun p => p.2.1)).sum) + 1 := by
  induction m with
  | nil => simp [updateStats]
  | cons p m ih =>
    by_cases h : p.1 = e
    · simp only [updateStats, if_pos h, List.map_cons, List.sum_cons]
      ring
    · simp only [updateStats, if_neg h, List.map_cons, List.sum_cons, ih]
      ring

theorem updateStats_lookup_same (m : List (String × ℕ × ℚ)) (e : String) (t : ℚ) :
    lookupStat e (updateStats m e t) = combineStat (lookupStat e m) [t] := by
  induction m with
  | nil => simp [updateStats, lookupStat, combineStat]
  | cons p m ih =>
    rcases p with ⟨k, c, tot⟩
    by_cases h : k = e
    · subst h
      simp [updateStats, lookupStat, combineStat]
    · simp only [updateStats, if_neg h, lookupStat, ih]

theorem updateStats_lookup_other (m : List (String × ℕ × ℚ)) (e k : String) (t : ℚ)
    (hne : k ≠ e) : lookupStat k (updateStats m e t) = lookupStat k m := by
  induction m with
  | nil => simp [updateStats, lookupStat, Ne.symm hne]
  | cons p m ih =>
    rcases p with ⟨k', c, tot⟩
    by_cases h : k' = e
    · subst h
      have hk : k' ≠ k := fun hx => hne (hx ▸ rfl)
      simp [updateStats, lookupStat, hk]
    · by_cases hk : k' = k
      · subst hk
        simp [updateStats, if_neg h, lookupStat]
      · simp only [updateStats, if_neg h, lookupStat, if_neg hk, ih]

theorem combineStat_snoc (s : Option (ℕ × ℚ)) (t : ℚ) (ts : List ℚ) :
    combineStat (combineStat s [t]) ts = combineStat s (t :: ts) := by
  cases s with
  | none =>
    simp only [combineStat, List.length_nil, List.foldl_nil, List.length_cons, List.foldl_cons]
    rw [Nat.add_comm]
  | some p =>
    simp only [combineStat, List.length_cons, List.length_nil, List.foldl_cons, List.foldl_nil]
    have h : p.1 + (0 + 1) + ts.length = p.1 + (ts.length + 1) := by omega
    rw [h]

theorem foldStats_lookup :
    ∀ (es : List (String × ℚ)) (m : List (String × ℕ × ℚ)) (e : String),
      lookupStat e (es.foldl (fun m p => updateStats m p.1 p.2) m) =
        combineStat (lookupStat e m) ((es.filter (fun p => p.1 == e)).map Prod.snd) := by
  intro es
  induction es with
  | nil =>
    intro m e
    cases h : lookupStat e m with
    | none => simp [combineStat, h]
    | some p => simp [combineStat, h]
  | cons p es ih =>
    intro m e
    rw [List.foldl_cons, ih]
    by_cases h : p.1 = e
    · subst h
      rw [updateStats_lookup_same, combineStat_snoc]
      simp [List.filter_cons]
    · rw [updateStats_lookup_other m p.1 e p.2 (Ne.symm h)]
      have : (p.1 == e) = false := by simpa using h
      simp [List.filter_cons, this]

theorem foldStats_fst_mem :
    ∀ (es : List (String × ℚ)) (m : List (String × ℕ × ℚ)) (k : String),
      k ∈ (es.foldl (fun m p => updateStats m p.1 p.2) m).map Prod.fst ↔
        k ∈ m.map Prod.fst ∨ k ∈ es.map Prod.fst := by
  intro es
  induction es with
  | nil => simp
  | cons p es ih =>
    intro m k
    rw [List.foldl_cons, ih, updateStats_fst]
    by_cases h : p.1 ∈ m.map Prod.fst
    · rw [if_pos h]
      simp only [List.map_cons, List.mem_cons]
      constructor
      · rintro (hm | he)
        · exact Or.inl hm
        · exact Or.inr (Or.inr he)
      · rintro (hm | rfl | he)
        · exact Or.inl hm
        · exact Or.inl h
        · exact Or.inr he
    · rw [if_neg h]
      simp only [List.mem_append, List.mem_singleton, List.map_cons, List.mem_cons]
      tauto

theorem foldStats_fst_nodup :
    ∀ (es : List (String × ℚ)) (m : List (String × ℕ × ℚ)),
      (m.map Prod.fst).Nodup →
      ((es.foldl (fun m p => updateStats m p.1 p.2) m).map Prod.fst).Nodup := by
  intro es
  induction es with
  | nil => intro m h; simpa using h
  | cons p es ih =>
    intro m h
    rw [List.foldl_cons]
    apply ih
    rw [updateStats_fst]
    by_cases hm : p.1 ∈ m.map Prod.fst
    · rw [if_pos hm]; exact h
    · rw [if_neg hm]
      exact List.Nodup.append h (List.nodup_singleton _) (by simpa using hm)

theorem foldStats_sum :
    ∀ (es : List (String × ℚ)) (m : List (String × ℕ × ℚ)),
      ((es.foldl (fun m p => updateStats m p.1 p.2) m).map (fun p => p.2.1)).sum =
        (m.map (fun p => p.2.1)).sum + es.length := by
  intro es
  induction es with
  | nil => simp
  | cons p es ih =>
    intro m
    rw [List.foldl_cons, ih, updateStats_sum]
    simp [List.length_cons]
    ring

theorem foldStats_length :
    ∀ (es : List (String × ℚ)) (m : List (String × ℕ × ℚ)),
      (es.foldl (fun m p => updateStats m p.1 p.2) m).length =
        ((es.foldl (fun m p => updateStats m p.1 p.2) m).map Prod.fst).length := by
  intro es m
  rw [List.length_map]

theorem lookupStat_of_mem_nodup :
    ∀ (l : List (String × ℕ × ℚ)) (e : String) (q : ℕ × ℚ),
      (l.map Prod.fst).Nodup → (e, q) ∈ l → lookupStat e l = some q := by
  intro l
  induction l with
  | nil => intro e q _ h; cases h
  | cons a l ih =>
    intro e q hnd hm
    rw [List.map_cons, List.nodup_cons] at hnd
    rcases List.mem_cons.mp hm with rfl | hm'
    · simp [lookupStat]
    · have hne : a.1 ≠ e := by
        intro hx
        exact hnd.1 (hx ▸ (List.mem_map.mpr ⟨(e, q), hm', rfl⟩))
      rw [lookupStat, if_neg hne]
      exact ih e q hnd.2 hm'

theorem accumStats_ok_elim :
    ∀ (logs : List JsonValue) (m stats : List (String × ℕ × ℚ)),
      logs.foldlM (fun m log => (entryOf log).map (fun p => updateStats m p.1 p.2)) m
          = .ok stats →
      (∀ log ∈ logs, ∃ p, entryOf log = .ok p) ∧
        stats = (entryVals logs).foldl (fun m p => updateStats m p.1 p.2) m := by
  intro logs
  induction logs with
  | nil =>
    intro m stats h
    rw [List.foldlM_nil] at h
    injection h with h
    refine ⟨?_, ?_⟩
    · intro _ hx
      cases hx
    · simp [entryVals, h.symm]
  | cons log logs ih =>
    intro m stats h
    rw [List.foldlM_cons] at h
    cases he : entryOf log with
    | error e =>
      rw [he] at h
      cases h
    | ok p =>
      rw [he] at h
      have h' : logs.foldlM (fun m log => (entryOf log).map (fun p => updateStats m p.1 p.2))
          (updateStats m p.1 p.2) = .ok stats := h
      obtain ⟨hall, hstat⟩ := ih (updateStats m p.1 p.2) stats h'
      refine ⟨?_, ?_⟩
      · intro l hl
        rcases List.mem_cons.mp hl with rfl | hl'
        · exact ⟨p, he⟩
        · exact hall l hl'
      · rw [hstat]
        simp [entryVals, List.filterMap_cons, he, Except.toOption]

theorem accumStats_ok_intro :
    ∀ (logs : List JsonValue) (m : List (String × ℕ × ℚ)),
      (∀ log ∈ logs, ∃ p, entryOf log = .ok p) →
      logs.foldlM (fun m log => (entryOf log).map (fun p => updateStats m p.1 p.2)) m
        = .ok ((entryVals logs).foldl (fun m p => updateStats m p.1 p.2) m) := by
  intro logs
  induction logs with
  | nil => intro m _; rfl
  | cons log logs ih =>
    intro m hall
    obtain ⟨p, hp⟩ := hall log (List.mem_cons_self log logs)
    rw [List.foldlM_cons, hp]
    have := ih (updateStats m p.1 p.2) (fun l hl => hall l (List.mem_cons_of_mem log hl))
    calc (Except.ok (updateStats m p.1 p.2)) >>=
          (fun b => logs.foldlM
            (fun m log => (entryOf log).map (fun p => updateStats m p.1 p.2)) b)
        = logs.foldlM (fun m log => (entryOf log).map (fun p => updateStats m p.1 p.2))
            (updateStats m p.1 p.2) := rfl
      _ = .ok ((entryVals logs).foldl (fun m p => updateStats m p.1 p.2)
            (updateStats m p.1 p.2)) := this
      _ = .ok ((entryVals (log :: logs)).foldl (fun m p => updateStats m p.1 p.2) m) := by
            simp [entryVals, List.filterMap_cons, hp, Except.toOption]

theorem entryOf_ok (log : JsonValue) (u : String) (t : ℚ) (hu : getUrl log = .ok u)
    (ht : getResponseTime log >>= pyFloat = .ok t) :
    entryOf log = .ok (normalizeUrl u, t) := by
  simp only [entryOf, hu, ht]
  rfl

theorem entryVals_fst_of_ok :
    ∀ logs : List JsonValue,
      (∀ log ∈ logs, (∃ u, getUrl log = .ok u) ∧ (∃ t, getResponseTime log >>= pyFloat = .ok t)) →
      (entryVals logs).map Prod.fst =
        logs.filterMap (fun log => (getUrl log).toOption.map normalizeUrl) := by
  intro logs
  induction logs with
  | nil => intro _; rfl
  | cons log logs ih =>
    intro hall
    obtain ⟨⟨u, hu⟩, ⟨t, ht⟩⟩ := hall log (List.mem_cons_self log logs)
    have he := entryOf_ok log u t hu ht
    simp only [entryVals, List.filterMap_cons, he, Except.toOption, hu, Option.map_some]
    rw [List.map_cons]
    exact congrArg (normalizeUrl u :: ·)
      (ih (fun l hl => hall l (List.mem_cons_of_mem log hl)))

theorem entryVals_length_of_ok :
    ∀ logs : List JsonValue,
      (∀ log ∈ logs, (∃ u, getUrl log = .ok u) ∧ (∃ t, getResponseTime log >>= pyFloat = .ok t)) →
      (entryVals logs).length = logs.length := by
  intro logs
  induction logs with
  | nil => intro _; rfl
  | cons log logs ih =>
    intro hall
    obtain ⟨⟨u, hu⟩, ⟨t, ht⟩⟩ := hall log (List.mem_cons_self log logs)
    have he := entryOf_ok log u t hu ht
    simp only [entryVals, List.filterMap_cons, he, Except.toOption, List.length_cons]
    exact congrArg (· + 1) (ih (fun l hl => hall l (List.mem_cons_of_mem log hl)))

theorem entryVals_filter_eq_tsOf :
    ∀ (logs : List JsonValue) (e : String),
      (((entryVals logs).filter (fun p => p.1 == e)).map Prod.snd) = tsOf e logs := by
  intro logs
  induction logs with
  | nil => intro e; rfl
  | cons log logs ih =>
    intro e
    cases he : (entryOf log).toOption with
    | none => simp only [entryVals, tsOf, List.filterMap_cons, he, Option.bind]; exact ih e
    | some p =>
      simp only [entryVals, tsOf, List.filterMap_cons, he, Option.bind, List.filter_cons]
      by_cases h : p.1 = e
      · have hb : (p.1 == e) = true := by simpa using h
        simp only [hb, if_pos h, List.filterMap_cons, List.map_cons]
        exact congrArg (p.2 :: ·) (ih e)
      · have hb : (p.1 == e) = false := by simpa using h
        simp only [hb, if_neg h]
        exact ih e

theorem nodup_length_eq_dedup (l l' : List String) (hn : l.Nodup)
    (hm : ∀ x, x ∈ l ↔ x ∈ l') : l.length = l'.dedup.length := by
  have h1 : l.Subperm l'.dedup :=
    hn.subperm (fun x hx => List.mem_dedup.mpr ((hm x).mp hx))
  have h2 : l'.dedup.Subperm l :=
    (List.nodup_dedup l').subperm (fun x hx => (hm x).mpr (List.mem_dedup.mp hx))
  exact Nat.le_antisymm h1.length_le h2.length_le

/-- C5: on a non-empty record list in which every record has a readable
string `url` and a float-coercible `response_time`, the average report
succeeds, its row count equals the number of distinct normalized endpoints,
and the per-row counts sum to the number of input records. -/
theorem averageReportCounts (logs : List JsonValue) (hne : logs ≠ [])
    (hok : ∀ log ∈ logs,
      (∃ u, getUrl log = .ok u) ∧ (∃ t, getResponseTime log >>= pyFloat = .ok t)) :
    ∃ rows, AverageReport.generate logs = .ok (rows, ["Endpoint", "Count", "Average Time"]) ∧
      rows.length =
        (logs.filterMap (fun log => (getUrl log).toOption.map normalizeUrl)).dedup.length ∧
      (rows.map (fun r => r.2.1)).sum = logs.length := by
  have hall : ∀ log ∈ logs, ∃ p, entryOf log = .ok p := by
    intro log hl
    obtain ⟨⟨u, hu⟩, ⟨t, ht⟩⟩ := hok log hl
    exact ⟨(normalizeUrl u, t), entryOf_ok log u t hu ht⟩
  have hacc := accumStats_ok_intro logs [] hall
  set stats := (entryVals logs).foldl (fun m p => updateStats m p.1 p.2) [] with hstats
  have hgen : AverageReport.generate logs =
      .ok (sortByFirst (stats.map (fun p => (p.1, p.2.1, format3 (fdiv p.2.2 p.2.1)))),
        ["Endpoint", "Count", "Average Time"]) := by
    unfold AverageReport.generate accumStats
    rw [hacc]
    rfl
  refine ⟨_, hgen, ?_, ?_⟩
  · have hperm := sortByFirst_perm (stats.map (fun p => (p.1, p.2.1, format3 (fdiv p.2.2 p.2.1))))
    rw [hperm.length_eq, List.length_map]
    have hkeys : stats.length = (stats.map Prod.fst).length := (List.length_map _ _).symm
    rw [hkeys]
    apply nodup_length_eq_dedup
    · exact foldStats_fst_nodup (entryVals logs) [] (by simp)
    · intro x
      rw [hstats, foldStats_fst_mem, entryVals_fst_of_ok logs hok]
      simp
  · have hperm := (sortByFirst_perm
      (stats.map (fun p => (p.1, p.2.1, format3 (fdiv p.2.2 p.2.1))))).map
        (fun r : String × ℕ × String => r.2.1)
    rw [hperm.sum_eq, List.map_map]
    have : ((fun r : String × ℕ × String => r.2.1) ∘
        (fun p : String × ℕ × ℚ => (p.1, p.2.1, format3 (fdiv p.2.2 p.2.1)))) =
        (fun p : String × ℕ × ℚ => p.2.1) := by
      funext p
      rfl
    rw [this, hstats, foldStats_sum, entryVals_length_of_ok logs hok]
    simp

/-- C5 (witness): two records on distinct endpoints (one with a query
string) yield two rows whose counts sum to the record count. -/
theorem averageReportCounts_w :
    ∃ rows, AverageReport.generate
        [.obj [("url", .str "/api/a?x=1"), ("response_time", .str "0.5")],
         .obj [("url", .str "/api/b"), ("response_time", .num 2)]] =
      .ok (rows, ["Endpoint", "Count", "Average Time"]) ∧
      rows.length =
        ([.obj [("url", .str "/api/a?x=1"), ("response_time", .str "0.5")],
          .obj [("url", .str "/api/b"), ("response_time", .num 2)]].filterMap
            (fun log => (getUrl log).toOption.map normalizeUrl)).dedup.length ∧
      (rows.map (fun r => r.2.1)).sum =
        ([.obj [("url", .str "/api/a?x=1"), ("response_time", .str "0.5")],
          .obj [("url", .str "/api/b"), ("response_time", .num 2)]] : List JsonValue).length := by
  apply averageReportCounts
  · simp
  · intro log hl
    have hl' : log = .obj [("url", .str "/api/a?x=1"), ("response_time", .str "0.5")] ∨
        log = .obj [("url", .str "/api/b"), ("response_time", .num 2)] := by
      simpa using hl
    rcases hl' with rfl | rfl
    · exact ⟨⟨"/api/a?x=1", rfl⟩, ⟨roundF (1/2), by rfl⟩⟩
    · exact ⟨⟨"/api/b", rfl⟩, ⟨roundF 2, by rfl⟩⟩

/-- C6 (amended): the third column of each average-report row is the
IEEE-754 binary64 mean of that endpoint's response times — the double
left-fold sum (`total_time`) divided by the count in double arithmetic —
formatted to three decimals by rounding the double's exact value half to
even; the row count is the number of that endpoint's records. Because the
sum and quotient are doubles, the printed value can differ from a fixed
3-decimal rounding of the exact arithmetic mean (see the counterexample). -/
theorem averageRowIsDoubleMean (logs : List JsonValue) (rows : List (String × ℕ × String))
    (hs : List String) (e : String) (c : ℕ) (s : String)
    (hgen : AverageReport.generate logs = .ok (rows, hs))
    (hrow : (e, c, s) ∈ rows) :
    c = (tsOf e logs).length ∧ s = format3 (fdiv ((tsOf e logs).foldl fadd 0) c) := by
  cases hacc : accumStats logs with
  | error err =>
    unfold AverageReport.generate at hgen
    rw [hacc] at hgen
    cases hgen
  | ok stats =>
    unfold AverageReport.generate at hgen
    rw [hacc] at hgen
    have hgen' : Except.ok
        (sortByFirst (stats.map (fun p => (p.1, p.2.1, format3 (fdiv p.2.2 p.2.1)))),
          ["Endpoint", "Count", "Average Time"]) =
        (Except.ok (rows, hs) : Except Err _) := hgen
    injection hgen' with hpair
    injection hpair with hrows hhs
    subst hrows
    unfold accumStats at hacc
    obtain ⟨hall, hstats⟩ := accumStats_ok_elim logs [] stats hacc
    have hmem : (e, c, s) ∈ stats.map
        (fun p => (p.1, p.2.1, format3 (fdiv p.2.2 p.2.1))) :=
      (sortByFirst_perm _).mem_iff.mp hrow
    obtain ⟨q, hq, hfq⟩ := List.mem_map.mp hmem
    rcases q with ⟨e', c', tot⟩
    injection hfq with he' hrest
    injection hrest with hc' hs'
    rw [← he', ← hc', ← hs']
    have hnd : (stats.map Prod.fst).Nodup := by
      rw [hstats]
      exact foldStats_fst_nodup (entryVals logs) [] (by simp)
    have hlook : lookupStat e' stats = some (c', tot) :=
      lookupStat_of_mem_nodup stats e' (c', tot) hnd hq
    rw [hstats, foldStats_lookup] at hlook
    have hts : ((entryVals logs).filter (fun p => p.1 == e')).map Prod.snd = tsOf e' logs :=
      entryVals_filter_eq_tsOf logs e'
    rw [hts] at hlook
    cases hcase : tsOf e' logs with
    | nil =>
      rw [hcase] at hlook
      cases hlook
    | cons t ts' =>
      rw [hcase] at hlook
      simp only [combineStat, lookupStat] at hlook
      injection hlook with hpair2
      injection hpair2 with hc htot
      constructor
      · rw [← hc, List.length_cons]
      · rw [← htot, ← hc]
        rfl

/-- C6 (counterexample): response times 0.123 and 0.456 on one endpoint have
the exact arithmetic mean 0.2895, which every fixed 3-decimal rounding rule
named by the spec sends to `0.290` (`format3` applied to the exact value is
round-half-to-even; `roundHalfAway3` is round-half-away-from-zero) — but the
program prints `0.289`, because the double sum `0.123 + 0.456` is slightly
below 0.579 and the halved double falls below the tie. The claim that the
third column equals the exact mean under a fixed 3-decimal rounding rule is
therefore false. -/
theorem averageNotExactMeanRounding :
    AverageReport.generate
        [.obj [("url", .str "/api/users"), ("response_time", .str "0.123")],
         .obj [("url", .str "/api/users"), ("response_time", .str "0.456")]] =
      .ok ([("/api/users", 2, "0.289")], ["Endpoint", "Count", "Average Time"]) ∧
    ((123 / 1000 : ℚ) + 456 / 1000) / 2 = 2895 / 10000 ∧
    format3 (2895 / 10000) = "0.290" ∧
    roundHalfAway3 (2895 / 10000) = "0.290" ∧
    ("0.289" : String) ≠ "0.290" :=
  ⟨by decide, by decide, by decide, by decide, by decide⟩

/-- C6 (witness): the amended theorem applied to the 0.123/0.456 run: the
row's count is the number of `/api/users` records and its third column is
the double mean formatted to three decimals (`"0.289"`). -/
theorem averageRowIsDoubleMean_w :
    (2 : ℕ) = (tsOf "/api/users"
        [.obj [("url", .str "/api/users"), ("response_time", .str "0.123")],
         .obj [("url", .str "/api/users"), ("response_time", .str "0.456")]]).length ∧
    ("0.289" : String) = format3 (fdiv ((tsOf "/api/users"
        [.obj [("url", .str "/api/users"), ("response_time", .str "0.123")],
         .obj [("url", .str "/api/users"), ("response_time", .str "0.456")]]).foldl fadd 0) 2) :=
  averageRowIsDoubleMean
    [.obj [("url", .str "/api/users"), ("response_time", .str "0.123")],
     .obj [("url", .str "/api/users"), ("response_time", .str "0.456")]]
    [("/api/users", 2, "0.289")] ["Endpoint", "Count", "Average Time"]
    "/api/users" 2 "0.289" (by decide) (by decide)

theorem bumpUA_fst (m : List (String × ℕ)) (ua : String) :
    (bumpUA m ua).map Prod.fst =
      if ua ∈ m.map Prod.fst then m.map Prod.fst else m.map Prod.fst ++ [ua] := by
  induction m with
  | nil => simp [bumpUA]
  | cons p m ih =>
    by_cases h : p.1 = ua
    · simp [bumpUA, h]
    · simp only [bumpUA, if_neg h, List.map_cons, ih, List.mem_cons]
      by_cases hm : ua ∈ m.map Prod.fst
      · simp [hm, Ne.symm h]
      · simp [hm, Ne.symm h]

theorem bumpUA_lookup_same (m : List (String × ℕ)) (ua : String) :
    lookupCount ua (bumpUA m ua) = combineCount (lookupCount ua m) 1 := by
  induction m with
  | nil => simp [bumpUA, lookupCount, combineCount]
  | cons p m ih =>
    rcases p with ⟨k, c⟩
    by_cases h : k = ua
    · subst h
      simp [bumpUA, lookupCount, combineCount]
    · simp only [bumpUA, if_neg h, lookupCount, ih]

theorem bumpUA_lookup_other (m : List (String × ℕ)) (ua k : String) (hne : k ≠ ua) :
    lookupCount k (bumpUA m ua) = lookupCount k m := by
  induction m with
  | nil => simp [bumpUA, lookupCount, Ne.symm hne]
  | cons p m ih =>
    rcases p with ⟨k', c⟩
    by_cases h : k' = ua
    · subst h
      have hk : k' ≠ k := fun hx => hne (hx ▸ rfl)
      simp [bumpUA, lookupCount, hk]
    · by_cases hk : k' = k
      · subst hk
        simp [bumpUA, if_neg h, lookupCount]
      · simp only [bumpUA, if_neg h, lookupCount, if_neg hk, ih]

theorem combineCount_snoc (s : Option ℕ) (n : ℕ) :
    combineCount (combineCount s 1) n = combineCount s (n + 1) := by
  cases s with
  | none =>
    simp only [combineCount]
    rw [Nat.add_comm]
  | some c =>
    simp only [combineCount, Nat.add_assoc]
    rw [Nat.add_comm 1 n]

theorem foldUA_lookup :
    ∀ (uas : List String) (m : List (String × ℕ)) (k : String),
      lookupCount k (uas.foldl bumpUA m) = combineCount (lookupCount k m) (uas.count k) := by
  intro uas
  induction uas with
  | nil =>
    intro m k
    cases h : lookupCount k m with
    | none => simp [combineCount, h]
    | some c => simp [combineCount, h]
  | cons ua uas ih =>
    intro m k
    rw [List.foldl_cons, ih]
    by_cases h : k = ua
    · subst h
      rw [bumpUA_lookup_same, combineCount_snoc]
      simp [List.count_cons]
    · rw [bumpUA_lookup_other m ua k h]
      have : (ua == k) = false := by simpa using Ne.symm h
      simp [List.count_cons, this]

theorem foldUA_fst_mem :
    ∀ (uas : List String) (m : List (String × ℕ)) (k : String),
      k ∈ (uas.foldl bumpUA m).map Prod.fst ↔ k ∈ m.map Prod.fst ∨ k ∈ uas := by
  intro uas
  induction uas with
  | nil => simp
  | cons ua uas ih =>
    intro m k
    rw [List.foldl_cons, ih, bumpUA_fst]
    by_cases h : ua ∈ m.map Prod.fst
    · rw [if_pos h]
      simp only [List.mem_cons]
      constructor
      · rintro (hm | he)
        · exact Or.inl hm
        · exact Or.inr (Or.inr he)
      · rintro (hm | rfl | he)
        · exact Or.inl hm
        · exact Or.inl h
        · exact Or.inr he
    · rw [if_neg h]
      simp only [List.mem_append, List.mem_singleton, List.mem_cons]
      tauto

theorem foldUA_fst_nodup :
    ∀ (uas : List String) (m : List (String × ℕ)),
      (m.map Prod.fst).Nodup → ((uas.foldl bumpUA m).map Prod.fst).Nodup := by
  intro uas
  induction uas with
  | nil => intro m h; simpa using h
  | cons ua uas ih =>
    intro m h
    rw [List.foldl_cons]
    apply ih
    rw [bumpUA_fst]
    by_cases hm : ua ∈ m.map Prod.fst
    · rw [if_pos hm]; exact h
    · rw [if_neg hm]
      exact List.Nodup.append h (List.nodup_singleton _) (by simpa using hm)

theorem lookupCount_of_mem_nodup :
    ∀ (l : List (String × ℕ)) (k : String) (c : ℕ),
      (l.map Prod.fst).Nodup → (k, c) ∈ l → lookupCount k l = some c := by
  intro l
  induction l with
  | nil => intro k c _ h; cases h
  | cons a l ih =>
    intro k c hnd hm
    rw [List.map_cons, List.nodup_cons] at hnd
    rcases List.mem_cons.mp hm with rfl | hm'
    · simp [lookupCount]
    · have hne : a.1 ≠ k := by
        intro hx
        exact hnd.1 (hx ▸ (List.mem_map.mpr ⟨(k, c), hm', rfl⟩))
      rw [lookupCount, if_neg hne]
      exact ih k c hnd.2 hm'

theorem accumUA_ok_elim :
    ∀ (logs : List JsonValue) (m stats : List (String × ℕ)),
      logs.foldlM (fun m log => (getUA log).map (bumpUA m)) m = .ok stats →
      (∀ log ∈ logs, ∃ ua, getUA log = .ok ua) ∧
        stats = (uaVals logs).foldl bumpUA m := by
  intro logs
  induction logs with
  | nil =>
    intro m stats h
    rw [List.foldlM_nil] at h
    injection h with h
    refine ⟨?_, ?_⟩
    · intro _ hx
      cases hx
    · simp [uaVals, h.symm]
  | cons log logs ih =>
    intro m stats h
    rw [List.foldlM_cons] at h
    cases he : getUA log with
    | error e =>
      rw [he] at h
      cases h
    | ok ua =>
      rw [he] at h
      have h' : logs.foldlM (fun m log => (getUA log).map (bumpUA m)) (bumpUA m ua)
          = .ok stats := h
      obtain ⟨hall, hstat⟩ := ih (bumpUA m ua) stats h'
      refine ⟨?_, ?_⟩
      · intro l hl
        rcases List.mem_cons.mp hl with rfl | hl'
        · exact ⟨ua, he⟩
        · exact hall l hl'
      · rw [hstat]
        simp [uaVals, List.filterMap_cons, he, Except.toOption]

theorem accumUA_ok_intro :
    ∀ (logs : List JsonValue) (m : List (String × ℕ)),
      (∀ log ∈ logs, ∃ ua, getUA log = .ok ua) →
      logs.foldlM (fun m log => (getUA log).map (bumpUA m)) m
        = .ok ((uaVals logs).foldl bumpUA m) := by
  intro logs
  induction logs with
  | nil => intro m _; rfl
  | cons log logs ih =>
    intro m hall
    obtain ⟨ua, hua⟩ := hall log (List.mem_cons_self log logs)
    rw [List.foldlM_cons, hua]
    have hrest := ih (bumpUA m ua) (fun l hl => hall l (List.mem_cons_of_mem log hl))
    calc (Except.ok (bumpUA m ua)) >>=
          (fun b => logs.foldlM (fun m log => (getUA log).map (bumpUA m)) b)
        = logs.foldlM (fun m log => (getUA log).map (bumpUA m)) (bumpUA m ua) := rfl
      _ = .ok ((uaVals logs).foldl bumpUA (bumpUA m ua)) := hrest
      _ = .ok ((uaVals (log :: logs)).foldl bumpUA m) := by
            simp [uaVals, List.filterMap_cons, hua, Except.toOption]

/-- C9: when every record is a mapping whose `http_user_agent`, if present,
is a string, the user-agent report groups records by that field's value
verbatim — records lacking the field grouped under the sentinel
`"Unknown"` (the default of `log.get`) — with headers
`["User-Agent", "Count"]`; each row's count is the number of records in its
group, and the rows' keys are exactly the distinct group keys. -/
theorem userAgentGrouping (logs : List JsonValue)
    (hok : ∀ log ∈ logs, ∃ ua, getUA log = .ok ua) :
    ∃ rows, UserAgentReport.generate logs = .ok (rows, ["User-Agent", "Count"]) ∧
      (∀ p ∈ rows, p.2 = logs.countP (fun log => (getUA log).toOption == some p.1)) ∧
      (∀ ua : String, (∃ c, (ua, c) ∈ rows) ↔ ua ∈ uaVals logs) := by
  have hacc := accumUA_ok_intro logs [] hok
  set stats := (uaVals logs).foldl bumpUA [] with hstats
  have hgen : UserAgentReport.generate logs = .ok (sortByFirst stats, ["User-Agent", "Count"]) := by
    unfold UserAgentReport.generate accumUA
    rw [hacc]
    rfl
  have hnd : (stats.map Prod.fst).Nodup := foldUA_fst_nodup (uaVals logs) [] (by simp)
  refine ⟨sortByFirst stats, hgen, ?_, ?_⟩
  · intro p hp
    have hmem : p ∈ stats := (sortByFirst_perm stats).mem_iff.mp hp
    rcases p with ⟨ua, c⟩
    have hlook : lookupCount ua stats = some c :=
      lookupCount_of_mem_nodup stats ua c hnd hmem
    rw [hstats, foldUA_lookup] at hlook
    have hcnt : (uaVals logs).count ua =
        logs.countP (fun log => (getUA log).toOption == some ua) :=
      List.count_filterMap ua (fun log => (getUA log).toOption) logs
    cases hc : (uaVals logs).count ua with
    | zero =>
      rw [hc] at hlook
      cases hlook
    | succ n =>
      rw [hc] at hlook
      simp only [combineCount, lookupCount] at hlook
      injection hlook with hlook
      rw [← hlook, ← hc, hcnt]
  · intro ua
    constructor
    · rintro ⟨c, hc⟩
      have hmem : (ua, c) ∈ stats := (sortByFirst_perm stats).mem_iff.mp hc
      have : ua ∈ stats.map Prod.fst := List.mem_map.mpr ⟨(ua, c), hmem, rfl⟩
      rw [hstats, foldUA_fst_mem] at this
      rcases this with h | h
      · cases h
      · exact h
    · intro hua
      have : ua ∈ stats.map Prod.fst := by
        rw [hstats, foldUA_fst_mem]
        exact Or.inr hua
      obtain ⟨p, hp, hfst⟩ := List.mem_map.mp this
      rcases p with ⟨ua', c⟩
      cases hfst
      exact ⟨c, (sortByFirst_perm stats).mem_iff.mpr hp⟩

/-- C9 (witness): two Chrome records and one record with no
`http_user_agent` field: Chrome counts 2, `"Unknown"` counts 1, and the row
keys are exactly the two group keys. -/
theorem userAgentGrouping_w :
    ∃ rows, UserAgentReport.generate
        [.obj [("http_user_agent", .str "Chrome")], .obj [],
         .obj [("http_user_agent", .str "Chrome")]] =
      .ok (rows, ["User-Agent", "Count"]) ∧
      (∀ p ∈ rows, p.2 =
        ([.obj [("http_user_agent", .str "Chrome")], .obj [],
          .obj [("http_user_agent", .str "Chrome")]] : List JsonValue).countP
            (fun log => (getUA log).toOption == some p.1)) ∧
      (∀ ua : String, (∃ c, (ua, c) ∈ rows) ↔
        ua ∈ uaVals [.obj [("http_user_agent", .str "Chrome")], .obj [],
          .obj [("http_user_agent", .str "Chrome")]]) := by
  apply userAgentGrouping
  intro log hl
  have hl' : log = .obj [("http_user_agent", .str "Chrome")] ∨ log = .obj [] ∨
      log = .obj [("http_user_agent", .str "Chrome")] := by
    simpa using hl
  rcases hl' with rfl | rfl | rfl
  · exact ⟨"Chrome", rfl⟩
  · exact ⟨"Unknown", rfl⟩
  · exact ⟨"Chrome", rfl⟩

/-- C10: the rows of both report strategies come out sorted ascending by
their first column under ordinal (code-point lexicographic) string
comparison: every successful report is pairwise `strLe`-sorted. -/
theorem reportsSortedByFirstColumn :
    (∀ (logs : List JsonValue) (rows : List (String × ℕ × String)) (hs : List String),
      AverageReport.generate logs = .ok (rows, hs) →
        rows.Pairwise (fun a b => strLe a.1 b.1 = true)) ∧
    (∀ (logs : List JsonValue) (rows : List (String × ℕ)) (hs : List String),
      UserAgentReport.generate logs = .ok (rows, hs) →
        rows.Pairwise (fun a b => strLe a.1 b.1 = true)) := by
  constructor
  · intro logs rows hs hgen
    cases hacc : accumStats logs with
    | error e =>
      unfold AverageReport.generate at hgen
      rw [hacc] at hgen
      cases hgen
    | ok stats =>
      unfold AverageReport.generate at hgen
      rw [hacc] at hgen
      have hgen' : Except.ok
          (sortByFirst (stats.map (fun p => (p.1, p.2.1, format3 (fdiv p.2.2 p.2.1)))),
            ["Endpoint", "Count", "Average Time"]) =
          (Except.ok (rows, hs) : Except Err _) := hgen
      injection hgen' with hpair
      injection hpair with hrows hhs
      rw [← hrows]
      exact sortByFirst_sorted _
  · intro logs rows hs hgen
    cases hacc : accumUA logs with
    | error e =>
      unfold UserAgentReport.generate at hgen
      rw [hacc] at hgen
      cases hgen
    | ok stats =>
      unfold UserAgentReport.generate at hgen
      rw [hacc] at hgen
      have hgen' : Except.ok (sortByFirst stats, ["User-Agent", "Count"]) =
          (Except.ok (rows, hs) : Except Err _) := hgen
      injection hgen' with hpair
      injection hpair with hrows hhs
      rw [← hrows]
      exact sortByFirst_sorted _

/-- C10 (witness): the sorted rows of one average run and one user-agent
run, obtained through the theorem at concrete inputs. -/
theorem reportsSortedByFirstColumn_w :
    ([("/a", (1 : ℕ), "3.000"), ("/b", 1, "1.000")]).Pairwise
      (fun a b => strLe a.1 b.1 = true) ∧
    ([("B", (1 : ℕ)), ("Unknown", 1)]).Pairwise (fun a b => strLe a.1 b.1 = true) :=
  ⟨reportsSortedByFirstColumn.1
      [.obj [("url", .str "/b"), ("response_time", .str "1.0")],
       .obj [("url", .str "/a"), ("response_time", .str "3.0")]]
      [("/a", 1, "3.000"), ("/b", 1, "1.000")] ["Endpoint", "Count", "Average Time"]
      (by decide),
   reportsSortedByFirstColumn.2
      [.obj [("http_user_agent", .str "B")], .obj []]
      [("B", 1), ("Unknown", 1)] ["User-Agent", "Count"] (by decide)⟩

theorem takeWhile_and (p q : Char → Bool) :
    ∀ l : List Char, (l.takeWhile q).takeWhile p = l.takeWhile (fun c => q c && p c) := by
  intro l
  induction l with
  | nil => rfl
  | cons a l ih =>
    cases hq : q a with
    | false => simp [List.takeWhile_cons, hq]
    | true =>
      cases hp : p a with
      | false => simp [List.takeWhile_cons, hq, hp]
      | true => simp [List.takeWhile_cons, hq, hp, ih]

/-- C7: URL normalization (cut at the first `?`, then cut at the first `#`)
is idempotent — normalizing a normalized endpoint is the identity — so
`/api/products?id=1` and `/api/products` yield the same endpoint and are
aggregated into a single row of the average report. -/
theorem normalizeUrlIdem :
    (∀ s : String, normalizeUrl (normalizeUrl s) = normalizeUrl s) ∧
    normalizeUrl "/api/products?id=1" = normalizeUrl "/api/products" ∧
    AverageReport.generate
        [.obj [("url", .str "/api/products?id=1"), ("response_time", .str "1.0")],
         .obj [("url", .str "/api/products"), ("response_time", .str "3.0")]] =
      .ok ([("/api/products", 2, "2.000")], ["Endpoint", "Count", "Average Time"]) := by
  refine ⟨?_, by decide, by decide⟩
  intro s
  show List.asString (((List.asString
      ((s.toList.takeWhile (fun a => decide (a ≠ '?'))).takeWhile
        (fun a => decide (a ≠ '#')))).toList.takeWhile
          (fun a => decide (a ≠ '?'))).takeWhile (fun a => decide (a ≠ '#'))) =
    List.asString ((s.toList.takeWhile (fun a => decide (a ≠ '?'))).takeWhile
      (fun a => decide (a ≠ '#')))
  have htl : ∀ cs : List Char, (List.asString cs).toList = cs := fun _ => rfl
  rw [htl]
  congr 1
  have hq : ((s.toList.takeWhile (fun a => decide (a ≠ '?'))).takeWhile
      (fun a => decide (a ≠ '#'))).takeWhile (fun a => decide (a ≠ '?')) =
      (s.toList.takeWhile (fun a => decide (a ≠ '?'))).takeWhile
        (fun a => decide (a ≠ '#')) := by
    rw [List.takeWhile_eq_self_iff]
    intro x hx
    exact @List.mem_takeWhile_imp Char (fun a => decide (a ≠ '?')) s.toList x
      ((List.takeWhile_sublist (fun a => decide (a ≠ '#'))).subset hx)
  rw [hq, List.takeWhile_eq_self_iff]
  intro x hx
  exact @List.mem_takeWhile_imp Char (fun a => decide (a ≠ '#'))
    (s.toList.takeWhile (fun a => decide (a ≠ '?'))) x hx

/-- C1: an invocation whose `--report` value is neither `"average"` nor
`"user_agent"` is rejected by `argparse` (the `choices` constraint) before
`read_logs` runs: `main` aborts with the configuration error, nothing is
printed, and the result does not depend on the log files at all. -/
theorem unknownReportRejected (files : List (List Line)) (dateArg : Option String)
    (reportType : String) (h1 : reportType ≠ "average") (h2 : reportType ≠ "user_agent") :
    main files reportType dateArg = ([], .error .argparseChoices) := by
  unfold main
  rw [if_neg]
  rintro (h | h)
  · exact h1 h
  · exact h2 h

/-- C1 (witness): `--report foo` is rejected even though the (unreadable,
undecodable) log file would have failed later: no diagnostics, config
error. -/
theorem unknownReportRejected_w :
    main [[⟨"x", none⟩]] "foo" none = ([], .error .argparseChoices) :=
  unknownReportRejected [[⟨"x", none⟩]] none "foo" (by decide) (by decide)

end Theorems

end LogReport
